import Mathlib

/-!
# Verification of the threshold secret-sharing core (`shamir.ts`, `fileProcessor.ts`)

Shallow embedding of the repository's finite-field Shamir secret sharing,
its chunk codec and the file-processor orchestration, together with proofs
of the specification claims.

Conventions:
* TypeScript `bigint` is embedded as `ℤ`; `number` indices/counts as `ℕ`
  (share ids, which mix with bigints via `BigInt(...)`, as `ℤ` where the
  source converts them).
* TypeScript `%` on `bigint` truncates towards zero, embedded as `Int.tmod`.
* Fallible code (`throw`) is embedded with `Except String`.
* Loops are embedded as folds / structural recursion; the two recursions
  whose termination measure is not structural (`modInverse`'s extended
  Euclid loop and the 32-byte chunking loop) take an explicit fuel
  argument that provably dominates the number of iterations.
-/

set_option maxRecDepth 16000

namespace SecretSharing

/-- The field prime from `generateSecurePrime` in `shamir.ts`:
`2^256 - 2^224 + 2^192 + 2^96 - 1` (the NIST P-256 base-field prime).
`getSecurePrime` memoizes this constant, so every call returns this value. -/
def PRIME : ℕ := 2 ^ 256 - 2 ^ 224 + 2 ^ 192 + 2 ^ 96 - 1

/-! ## Modular exponentiation by squaring (proof infrastructure)

Used only to certify `PRIME`'s primality via `lucas_primality`; kernel-
computable because the recursion is structural in the fuel. -/

/-- Binary modular exponentiation with fuel: computes `a ^ e % n` whenever
`e < 2 ^ fuel`. -/
def powModAux : ℕ → ℕ → ℕ → ℕ → ℕ
  | 0, _, _, n => 1 % n
  | fuel + 1, a, e, n =>
    if e = 0 then 1 % n
    else
      let h := powModAux fuel a (e / 2) n
      let h2 := h * h % n
      if e % 2 = 1 then h2 * a % n else h2

theorem powModAux_correct :
    ∀ (fuel a e n : ℕ), e < 2 ^ fuel → powModAux fuel a e n = a ^ e % n := by
  intro fuel
  induction fuel with
  | zero =>
    intro a e n he
    interval_cases e
    simp [powModAux]
  | succ fuel ih =>
    intro a e n he
    by_cases he0 : e = 0
    · simp [powModAux, he0]
    · have hdiv : e / 2 < 2 ^ fuel := by
        have : e < 2 ^ (fuel + 1) := he
        have h2 : 2 ^ (fuel + 1) = 2 * 2 ^ fuel := by ring
        omega
      have hrec := ih a (e / 2) n hdiv
      have hsplit : e = 2 * (e / 2) + e % 2 := (Nat.div_add_mod e 2).symm ▸ by omega
      have hpow : a ^ e = a ^ (e / 2) * a ^ (e / 2) * a ^ (e % 2) := by
        conv_lhs => rw [hsplit]
        rw [pow_add, two_mul, pow_add]
      rcases Nat.mod_two_eq_zero_or_one e with hm | hm
      · have hstep : powModAux (fuel + 1) a e n =
            powModAux fuel a (e / 2) n * powModAux fuel a (e / 2) n % n := by
          simp [powModAux, he0, hm]
        rw [hstep, hrec, hpow, hm, pow_zero, mul_one]
        exact (Nat.mul_mod _ _ _).symm
      · have hstep : powModAux (fuel + 1) a e n =
            powModAux fuel a (e / 2) n * powModAux fuel a (e / 2) n % n * a % n := by
          simp [powModAux, he0, hm]
        rw [hstep, hrec, hpow, hm, pow_one]
        conv_rhs => rw [Nat.mul_mod, Nat.mul_mod (a ^ (e / 2)) (a ^ (e / 2))]
        conv_lhs => rw [Nat.mul_mod]
        rw [Nat.mod_mod]

theorem zmod_pow_eq_powModAux (a e n fuel : ℕ) (hf : e < 2 ^ fuel) :
    ((a : ZMod n)) ^ e = ((powModAux fuel a e n : ℕ) : ZMod n) := by
  rw [powModAux_correct fuel a e n hf, ZMod.natCast_mod, Nat.cast_pow]

/-- One Lucas check, `decide`-friendly: reduces `(a : ZMod n) ^ e = 1` to a
kernel computation. -/
theorem lucas_eq_check (a e n : ℕ) (hf : e < 2 ^ 300)
    (h : powModAux 300 a e n % n = 1 % n) : ((a : ZMod n)) ^ e = 1 := by
  rw [zmod_pow_eq_powModAux a e n 300 hf, ← Nat.cast_one (R := ZMod n),
    ZMod.natCast_eq_natCast_iff']
  exact h

theorem lucas_ne_check (a e n : ℕ) (hf : e < 2 ^ 300)
    (h : powModAux 300 a e n % n ≠ 1 % n) : ((a : ZMod n)) ^ e ≠ 1 := by
  intro hcontra
  apply h
  rw [zmod_pow_eq_powModAux a e n 300 hf, ← Nat.cast_one (R := ZMod n)] at hcontra
  exact (ZMod.natCast_eq_natCast_iff' _ _ _).mp hcontra

/-- A prime `q` dividing a product of primes must be one of them. -/
theorem prime_dvd_mul_split {q a b : ℕ} (hq : q.Prime) (h : q ∣ a * b) :
    q ∣ a ∨ q ∣ b := (Nat.Prime.dvd_mul hq).mp h


/-- Pratt/Lucas primality certificate (0) for `66417393611`. -/
theorem prime_cert_0 : Nat.Prime 66417393611 := by
  refine lucas_primality 66417393611 ((6 : ℕ) : ZMod 66417393611) ?_ ?_
  · exact lucas_eq_check 6 (66417393611 - 1) 66417393611 (by norm_num) (by decide)
  · have hfac : (66417393611 : ℕ) - 1 = 2 * (5 * (53 * (173 * (197 * (3677))))) := by norm_num
    intro q hq hdvd
    rw [hfac] at hdvd
    rcases prime_dvd_mul_split hq hdvd with h | hdvd
    · obtain rfl := (Nat.prime_dvd_prime_iff_eq hq (by norm_num)).mp h
      exact lucas_ne_check 6 _ _ (by norm_num) (by decide)
    rcases prime_dvd_mul_split hq hdvd with h | hdvd
    · obtain rfl := (Nat.prime_dvd_prime_iff_eq hq (by norm_num)).mp h
      exact lucas_ne_check 6 _ _ (by norm_num) (by decide)
    rcases prime_dvd_mul_split hq hdvd with h | hdvd
    · obtain rfl := (Nat.prime_dvd_prime_iff_eq hq (by norm_num)).mp h
      exact lucas_ne_check 6 _ _ (by norm_num) (by decide)
    rcases prime_dvd_mul_split hq hdvd with h | hdvd
    · obtain rfl := (Nat.prime_dvd_prime_iff_eq hq (by norm_num)).mp h
      exact lucas_ne_check 6 _ _ (by norm_num) (by decide)
    rcases prime_dvd_mul_split hq hdvd with h | hdvd
    · obtain rfl := (Nat.prime_dvd_prime_iff_eq hq (by norm_num)).mp h
      exact lucas_ne_check 6 _ _ (by norm_num) (by decide)
    · have h := hdvd
      obtain rfl := (Nat.prime_dvd_prime_iff_eq hq (by norm_num)).mp h
      exact lucas_ne_check 6 _ _ (by norm_num) (by decide)

/-- Pratt/Lucas primality certificate (1) for `46076956964474543`. -/
theorem prime_cert_1 : Nat.Prime 46076956964474543 := by
  refine lucas_primality 46076956964474543 ((5 : ℕ) : ZMod 46076956964474543) ?_ ?_
  · exact lucas_eq_check 5 (46076956964474543 - 1) 46076956964474543 (by norm_num) (by decide)
  · have hfac : (46076956964474543 : ℕ) - 1 = 2 * (23 * (18169 * (78283 * (704251)))) := by norm_num
    intro q hq hdvd
    rw [hfac] at hdvd
    rcases prime_dvd_mul_split hq hdvd with h | hdvd
    · obtain rfl := (Nat.prime_dvd_prime_iff_eq hq (by norm_num)).mp h
      exact lucas_ne_check 5 _ _ (by norm_num) (by decide)
    rcases prime_dvd_mul_split hq hdvd with h | hdvd
    · obtain rfl := (Nat.prime_dvd_prime_iff_eq hq (by norm_num)).mp h
      exact lucas_ne_check 5 _ _ (by norm_num) (by decide)
    rcases prime_dvd_mul_split hq hdvd with h | hdvd
    · obtain rfl := (Nat.prime_dvd_prime_iff_eq hq (by norm_num)).mp h
      exact lucas_ne_check 5 _ _ (by norm_num) (by decide)
    rcases prime_dvd_mul_split hq hdvd with h | hdvd
    · obtain rfl := (Nat.prime_dvd_prime_iff_eq hq (by norm_num)).mp h
      exact lucas_ne_check 5 _ _ (by norm_num) (by decide)
    · have h := hdvd
      obtain rfl := (Nat.prime_dvd_prime_iff_eq hq (by norm_num)).mp h
      exact lucas_ne_check 5 _ _ (by norm_num) (by decide)

/-- Pratt/Lucas primality certificate (2) for `11290956913871`. -/
theorem prime_cert_2 : Nat.Prime 11290956913871 := by
  refine lucas_primality 11290956913871 ((13 : ℕ) : ZMod 11290956913871) ?_ ?_
  · exact lucas_eq_check 13 (11290956913871 - 1) 11290956913871 (by norm_num) (by decide)
  · have hfac : (11290956913871 : ℕ) - 1 = 2 * (5 * (17 * (66417393611))) := by norm_num
    intro q hq hdvd
    rw [hfac] at hdvd
    rcases prime_dvd_mul_split hq hdvd with h | hdvd
    · obtain rfl := (Nat.prime_dvd_prime_iff_eq hq (by norm_num)).mp h
      exact lucas_ne_check 13 _ _ (by norm_num) (by decide)
    rcases prime_dvd_mul_split hq hdvd with h | hdvd
    · obtain rfl := (Nat.prime_dvd_prime_iff_eq hq (by norm_num)).mp h
      exact lucas_ne_check 13 _ _ (by norm_num) (by decide)
    rcases prime_dvd_mul_split hq hdvd with h | hdvd
    · obtain rfl := (Nat.prime_dvd_prime_iff_eq hq (by norm_num)).mp h
      exact lucas_ne_check 13 _ _ (by norm_num) (by decide)
    · have h := hdvd
      obtain rfl := (Nat.prime_dvd_prime_iff_eq hq prime_cert_0).mp h
      exact lucas_ne_check 13 _ _ (by norm_num) (by decide)

/-- Pratt/Lucas primality certificate for `204061199`
(`204061199 - 1 = 2 * 11 * 23 * 107 * 3769`, witness `11`). -/
theorem prime_cert_204061199 : Nat.Prime 204061199 := by
  refine lucas_primality 204061199 ((11 : ℕ) : ZMod 204061199) ?_ ?_
  · exact lucas_eq_check 11 (204061199 - 1) 204061199 (by norm_num) (by decide)
  · have hfac : (204061199 : ℕ) - 1 = 2 * (11 * (23 * (107 * 3769))) := by norm_num
    intro q hq hdvd
    rw [hfac] at hdvd
    rcases prime_dvd_mul_split hq hdvd with h | hdvd
    · obtain rfl := (Nat.prime_dvd_prime_iff_eq hq (by norm_num)).mp h
      exact lucas_ne_check 11 _ _ (by norm_num) (by decide)
    rcases prime_dvd_mul_split hq hdvd with h | hdvd
    · obtain rfl := (Nat.prime_dvd_prime_iff_eq hq (by norm_num)).mp h
      exact lucas_ne_check 11 _ _ (by norm_num) (by decide)
    rcases prime_dvd_mul_split hq hdvd with h | hdvd
    · obtain rfl := (Nat.prime_dvd_prime_iff_eq hq (by norm_num)).mp h
      exact lucas_ne_check 11 _ _ (by norm_num) (by decide)
    rcases prime_dvd_mul_split hq hdvd with h | hdvd
    · obtain rfl := (Nat.prime_dvd_prime_iff_eq hq (by norm_num)).mp h
      exact lucas_ne_check 11 _ _ (by norm_num) (by decide)
    · have h := hdvd
      obtain rfl := (Nat.prime_dvd_prime_iff_eq hq (by norm_num)).mp h
      exact lucas_ne_check 11 _ _ (by norm_num) (by decide)

/-- Pratt/Lucas primality certificate (3) for `34282281433`. -/
theorem prime_cert_3 : Nat.Prime 34282281433 := by
  refine lucas_primality 34282281433 ((17 : ℕ) : ZMod 34282281433) ?_ ?_
  · exact lucas_eq_check 17 (34282281433 - 1) 34282281433 (by norm_num) (by decide)
  · have hfac : (34282281433 : ℕ) - 1 = 2 ^ 3 * (3 * (7 * (204061199))) := by norm_num
    intro q hq hdvd
    rw [hfac] at hdvd
    rcases prime_dvd_mul_split hq hdvd with h | hdvd
    · have hq' : q ∣ 2 := hq.dvd_of_dvd_pow h
      obtain rfl := (Nat.prime_dvd_prime_iff_eq hq (by norm_num)).mp hq'
      exact lucas_ne_check 17 _ _ (by norm_num) (by decide)
    rcases prime_dvd_mul_split hq hdvd with h | hdvd
    · obtain rfl := (Nat.prime_dvd_prime_iff_eq hq (by norm_num)).mp h
      exact lucas_ne_check 17 _ _ (by norm_num) (by decide)
    rcases prime_dvd_mul_split hq hdvd with h | hdvd
    · obtain rfl := (Nat.prime_dvd_prime_iff_eq hq (by norm_num)).mp h
      exact lucas_ne_check 17 _ _ (by norm_num) (by decide)
    · have h := hdvd
      obtain rfl := (Nat.prime_dvd_prime_iff_eq hq prime_cert_204061199).mp h
      exact lucas_ne_check 17 _ _ (by norm_num) (by decide)

/-- Pratt/Lucas primality certificate (4) for `774023187263532362759620327192479577272145303`. -/
theorem prime_cert_4 : Nat.Prime 774023187263532362759620327192479577272145303 := by
  refine lucas_primality 774023187263532362759620327192479577272145303 ((3 : ℕ) : ZMod 774023187263532362759620327192479577272145303) ?_ ?_
  · exact lucas_eq_check 3 (774023187263532362759620327192479577272145303 - 1) 774023187263532362759620327192479577272145303 (by norm_num) (by decide)
  · have hfac : (774023187263532362759620327192479577272145303 : ℕ) - 1 = 2 * (3 ^ 2 * (2411 * (34282281433 * (11290956913871 * (46076956964474543))))) := by norm_num
    intro q hq hdvd
    rw [hfac] at hdvd
    rcases prime_dvd_mul_split hq hdvd with h | hdvd
    · obtain rfl := (Nat.prime_dvd_prime_iff_eq hq (by norm_num)).mp h
      exact lucas_ne_check 3 _ _ (by norm_num) (by decide)
    rcases prime_dvd_mul_split hq hdvd with h | hdvd
    · have hq' : q ∣ 3 := hq.dvd_of_dvd_pow h
      obtain rfl := (Nat.prime_dvd_prime_iff_eq hq (by norm_num)).mp hq'
      exact lucas_ne_check 3 _ _ (by norm_num) (by decide)
    rcases prime_dvd_mul_split hq hdvd with h | hdvd
    · obtain rfl := (Nat.prime_dvd_prime_iff_eq hq (by norm_num)).mp h
      exact lucas_ne_check 3 _ _ (by norm_num) (by decide)
    rcases prime_dvd_mul_split hq hdvd with h | hdvd
    · obtain rfl := (Nat.prime_dvd_prime_iff_eq hq prime_cert_3).mp h
      exact lucas_ne_check 3 _ _ (by norm_num) (by decide)
    rcases prime_dvd_mul_split hq hdvd with h | hdvd
    · obtain rfl := (Nat.prime_dvd_prime_iff_eq hq prime_cert_2).mp h
      exact lucas_ne_check 3 _ _ (by norm_num) (by decide)
    · have h := hdvd
      obtain rfl := (Nat.prime_dvd_prime_iff_eq hq prime_cert_1).mp h
      exact lucas_ne_check 3 _ _ (by norm_num) (by decide)

/-- Pratt/Lucas primality certificate (5) for `835945042244614951780389953367877943453916927241`. -/
theorem prime_cert_5 : Nat.Prime 835945042244614951780389953367877943453916927241 := by
  refine lucas_primality 835945042244614951780389953367877943453916927241 ((11 : ℕ) : ZMod 835945042244614951780389953367877943453916927241) ?_ ?_
  · exact lucas_eq_check 11 (835945042244614951780389953367877943453916927241 - 1) 835945042244614951780389953367877943453916927241 (by norm_num) (by decide)
  · have hfac : (835945042244614951780389953367877943453916927241 : ℕ) - 1 = 2 ^ 3 * (3 ^ 3 * (5 * (774023187263532362759620327192479577272145303))) := by norm_num
    intro q hq hdvd
    rw [hfac] at hdvd
    rcases prime_dvd_mul_split hq hdvd with h | hdvd
    · have hq' : q ∣ 2 := hq.dvd_of_dvd_pow h
      obtain rfl := (Nat.prime_dvd_prime_iff_eq hq (by norm_num)).mp hq'
      exact lucas_ne_check 11 _ _ (by norm_num) (by decide)
    rcases prime_dvd_mul_split hq hdvd with h | hdvd
    · have hq' : q ∣ 3 := hq.dvd_of_dvd_pow h
      obtain rfl := (Nat.prime_dvd_prime_iff_eq hq (by norm_num)).mp hq'
      exact lucas_ne_check 11 _ _ (by norm_num) (by decide)
    rcases prime_dvd_mul_split hq hdvd with h | hdvd
    · obtain rfl := (Nat.prime_dvd_prime_iff_eq hq (by norm_num)).mp h
      exact lucas_ne_check 11 _ _ (by norm_num) (by decide)
    · have h := hdvd
      obtain rfl := (Nat.prime_dvd_prime_iff_eq hq prime_cert_4).mp h
      exact lucas_ne_check 11 _ _ (by norm_num) (by decide)

/-- Pratt/Lucas primality certificate (6) for `115792089210356248762697446949407573530086143415290314195533631308867097853951`. -/
theorem prime_cert_6 : Nat.Prime 115792089210356248762697446949407573530086143415290314195533631308867097853951 := by
  refine lucas_primality 115792089210356248762697446949407573530086143415290314195533631308867097853951 ((6 : ℕ) : ZMod 115792089210356248762697446949407573530086143415290314195533631308867097853951) ?_ ?_
  · exact lucas_eq_check 6 (115792089210356248762697446949407573530086143415290314195533631308867097853951 - 1) 115792089210356248762697446949407573530086143415290314195533631308867097853951 (by norm_num) (by decide)
  · have hfac : (115792089210356248762697446949407573530086143415290314195533631308867097853951 : ℕ) - 1 = 2 * (3 * (5 ^ 2 * (17 * (257 * (641 * (1531 * (65537 * (490463 * (6700417 * (835945042244614951780389953367877943453916927241)))))))))) := by norm_num
    intro q hq hdvd
    rw [hfac] at hdvd
    rcases prime_dvd_mul_split hq hdvd with h | hdvd
    · obtain rfl := (Nat.prime_dvd_prime_iff_eq hq (by norm_num)).mp h
      exact lucas_ne_check 6 _ _ (by norm_num) (by decide)
    rcases prime_dvd_mul_split hq hdvd with h | hdvd
    · obtain rfl := (Nat.prime_dvd_prime_iff_eq hq (by norm_num)).mp h
      exact lucas_ne_check 6 _ _ (by norm_num) (by decide)
    rcases prime_dvd_mul_split hq hdvd with h | hdvd
    · have hq' : q ∣ 5 := hq.dvd_of_dvd_pow h
      obtain rfl := (Nat.prime_dvd_prime_iff_eq hq (by norm_num)).mp hq'
      exact lucas_ne_check 6 _ _ (by norm_num) (by decide)
    rcases prime_dvd_mul_split hq hdvd with h | hdvd
    · obtain rfl := (Nat.prime_dvd_prime_iff_eq hq (by norm_num)).mp h
      exact lucas_ne_check 6 _ _ (by norm_num) (by decide)
    rcases prime_dvd_mul_split hq hdvd with h | hdvd
    · obtain rfl := (Nat.prime_dvd_prime_iff_eq hq (by norm_num)).mp h
      exact lucas_ne_check 6 _ _ (by norm_num) (by decide)
    rcases prime_dvd_mul_split hq hdvd with h | hdvd
    · obtain rfl := (Nat.prime_dvd_prime_iff_eq hq (by norm_num)).mp h
      exact lucas_ne_check 6 _ _ (by norm_num) (by decide)
    rcases prime_dvd_mul_split hq hdvd with h | hdvd
    · obtain rfl := (Nat.prime_dvd_prime_iff_eq hq (by norm_num)).mp h
      exact lucas_ne_check 6 _ _ (by norm_num) (by decide)
    rcases prime_dvd_mul_split hq hdvd with h | hdvd
    · obtain rfl := (Nat.prime_dvd_prime_iff_eq hq (by norm_num)).mp h
      exact lucas_ne_check 6 _ _ (by norm_num) (by decide)
    rcases prime_dvd_mul_split hq hdvd with h | hdvd
    · obtain rfl := (Nat.prime_dvd_prime_iff_eq hq (by norm_num)).mp h
      exact lucas_ne_check 6 _ _ (by norm_num) (by decide)
    rcases prime_dvd_mul_split hq hdvd with h | hdvd
    · obtain rfl := (Nat.prime_dvd_prime_iff_eq hq (by norm_num)).mp h
      exact lucas_ne_check 6 _ _ (by norm_num) (by decide)
    · have h := hdvd
      obtain rfl := (Nat.prime_dvd_prime_iff_eq hq prime_cert_5).mp h
      exact lucas_ne_check 6 _ _ (by norm_num) (by decide)


/-- The field modulus of the engine is prime. -/
theorem PRIME_prime : Nat.Prime PRIME := by
  have h : PRIME = 115792089210356248762697446949407573530086143415290314195533631308867097853951 := by
    norm_num [PRIME]
  rw [h]
  exact prime_cert_6

instance : Fact (Nat.Prime PRIME) := ⟨PRIME_prime⟩

instance : NeZero PRIME := ⟨PRIME_prime.ne_zero⟩

theorem PRIME_pos : (0 : ℤ) < (PRIME : ℤ) := by exact_mod_cast PRIME_prime.pos

/-! ## `FiniteField`: `mod` and `modInverse` from `shamir.ts` -/

/-- `mod(a, m)` from `shamir.ts`: `((a % m) + m) % m`, where `%` is
TypeScript's truncating bigint remainder (`Int.tmod`). -/
def tsMod (a m : ℤ) : ℤ := Int.tmod (Int.tmod a m + m) m

theorem neg_lt_tmod (a : ℤ) {m : ℤ} (hm : 0 < m) : -m < Int.tmod a m := by
  match a, m with
  | .ofNat n, m =>
    have h := Int.tmod_nonneg m
      (by rw [Int.ofNat_eq_coe]; exact_mod_cast Nat.zero_le n : (0:ℤ) ≤ .ofNat n)
    omega
  | .negSucc n, .ofNat (k + 1) =>
    have hdef : Int.tmod (.negSucc n) (.ofNat (k + 1)) =
        -((Nat.succ n % (k + 1) : ℕ) : ℤ) := rfl
    have hmod : Nat.succ n % (k + 1) < k + 1 := Nat.mod_lt _ (Nat.succ_pos k)
    rw [hdef, Int.ofNat_eq_coe]
    have : ((Nat.succ n % (k + 1) : ℕ) : ℤ) < ((k + 1 : ℕ) : ℤ) := by exact_mod_cast hmod
    omega

theorem tsMod_eq_emod (a : ℤ) {m : ℤ} (hm : 0 < m) : tsMod a m = a % m := by
  unfold tsMod
  have h1 : 0 ≤ Int.tmod a m + m := by have := neg_lt_tmod a hm; omega
  rw [Int.tmod_eq_emod h1 (le_of_lt hm), Int.tmod_def]
  have h2 : a - m * a.tdiv m + m = a + m * (1 - a.tdiv m) := by ring
  rw [h2, Int.add_mul_emod_self_left]

theorem tsMod_nonneg (a : ℤ) {m : ℤ} (hm : 0 < m) : 0 ≤ tsMod a m := by
  rw [tsMod_eq_emod a hm]; exact Int.emod_nonneg a (ne_of_gt hm)

theorem tsMod_lt (a : ℤ) {m : ℤ} (hm : 0 < m) : tsMod a m < m := by
  rw [tsMod_eq_emod a hm]; exact Int.emod_lt_of_pos a hm

/-- Reducing with `tsMod` does not change the value in `ZMod PRIME`. -/
theorem intCast_tsMod (a : ℤ) :
    ((tsMod a (PRIME : ℤ) : ℤ) : ZMod PRIME) = (a : ZMod PRIME) := by
  rw [tsMod_eq_emod a PRIME_pos, ZMod.intCast_eq_intCast_iff']
  exact Int.emod_emod_of_dvd a dvd_rfl

/-- The `while (r !== 0n)` extended-Euclid loop of `modInverse`.
Both remainders start nonnegative (`a` is `mod`-reduced when negative, and
`m` is the positive prime) and stay so, hence they are carried as naturals;
the Bézout coefficients `old_s`/`s` are carried exactly as in the source.
`fuel` dominates the iteration count: `r` strictly decreases every round,
so any `fuel > r` suffices and the result is fuel-independent. -/
def egcdAux : ℕ → ℕ → ℕ → ℤ → ℤ → ℤ
  | 0, _, _, old_s, _ => old_s
  | fuel + 1, old_r, r, old_s, s =>
    if r = 0 then old_s
    else egcdAux fuel r (old_r % r) s (old_s - ((old_r / r : ℕ) : ℤ) * s)

/-- `modInverse(a, m)` from `shamir.ts`: extended Euclid on `(a', m)` with
`a' = a < 0 ? mod(a, m) : a`, returning `mod(old_s, m)`. -/
def modInverse (a m : ℤ) : ℤ :=
  let a' := if a < 0 then tsMod a m else a
  tsMod (egcdAux (m.toNat + 1) a'.toNat m.toNat 1 0) m

/-- Loop invariant of the extended Euclid loop, stated in `ZMod n`:
if both Bézout accumulators multiply `x` to the corresponding remainder,
the result multiplies `x` to `gcd r old_r`. -/
theorem egcdAux_mul (n : ℕ) (x : ZMod n) :
    ∀ (fuel old_r r : ℕ) (old_s s : ℤ), r < fuel →
      ((old_s : ℤ) : ZMod n) * x = ((old_r : ℕ) : ZMod n) →
      ((s : ℤ) : ZMod n) * x = ((r : ℕ) : ZMod n) →
      ((egcdAux fuel old_r r old_s s : ℤ) : ZMod n) * x =
        ((Nat.gcd r old_r : ℕ) : ZMod n) := by
  intro fuel
  induction fuel with
  | zero => intro old_r r old_s s hlt; omega
  | succ fuel ih =>
    intro old_r r old_s s hlt h1 h2
    by_cases hr : r = 0
    · subst hr
      simpa [egcdAux, Nat.gcd_zero_left] using h1
    · have hstep : egcdAux (fuel + 1) old_r r old_s s =
          egcdAux fuel r (old_r % r) s (old_s - ((old_r / r : ℕ) : ℤ) * s) := by
        simp [egcdAux, hr]
      rw [hstep, Nat.gcd_rec r old_r]
      have hrpos : 0 < r := Nat.pos_of_ne_zero hr
      have hlt' : old_r % r < fuel := by
        have := Nat.mod_lt old_r hrpos
        omega
      refine ih r (old_r % r) s _ hlt' h2 ?_
      have hmod : ((old_r % r : ℕ) : ZMod n) =
          ((old_r : ℕ) : ZMod n) - ((old_r / r : ℕ) : ZMod n) * ((r : ℕ) : ZMod n) := by
        have hn : old_r % r + r * (old_r / r) = old_r := Nat.mod_add_div old_r r
        have : ((old_r % r + r * (old_r / r) : ℕ) : ZMod n) = ((old_r : ℕ) : ZMod n) := by
          rw [hn]
        push_cast at this
        linear_combination this
      rw [hmod, ← h1, ← h2]
      simp only [Int.cast_sub, Int.cast_mul, Int.cast_natCast]
      ring

/-- `modInverse(a, PRIME)` is the field inverse of `a` in `ZMod PRIME`
whenever `a` is nonzero mod `PRIME`. -/
theorem modInverse_spec (a : ℤ) (ha : (a : ZMod PRIME) ≠ 0) :
    ((modInverse a (PRIME : ℤ) : ℤ) : ZMod PRIME) = (a : ZMod PRIME)⁻¹ := by
  unfold modInverse
  set a' : ℤ := if a < 0 then tsMod a (PRIME : ℤ) else a with ha'
  have ha'nonneg : 0 ≤ a' := by
    rw [ha']
    split
    · exact tsMod_nonneg a PRIME_pos
    · omega
  have ha'cast : ((a' : ℤ) : ZMod PRIME) = (a : ZMod PRIME) := by
    rw [ha']
    split
    · exact intCast_tsMod a
    · rfl
  have htonat : ((a'.toNat : ℕ) : ZMod PRIME) = (a : ZMod PRIME) := by
    rw [← ha'cast, ← Int.toNat_of_nonneg ha'nonneg]
    push_cast
    rw [Int.toNat_of_nonneg ha'nonneg]
  have hPtoNat : (PRIME : ℤ).toNat = PRIME := Int.toNat_natCast PRIME
  have hinv := egcdAux_mul PRIME ((a'.toNat : ℕ) : ZMod PRIME)
    ((PRIME : ℤ).toNat + 1) a'.toNat (PRIME : ℤ).toNat 1 0
    (by omega)
    (by push_cast; ring)
    (by rw [hPtoNat]; push_cast [ZMod.natCast_self]; ring)
  have hgcd : Nat.gcd (PRIME : ℤ).toNat a'.toNat = 1 := by
    rw [hPtoNat]
    refine Nat.Coprime.gcd_eq_one ?_
    refine (Nat.Prime.coprime_iff_not_dvd PRIME_prime).mpr ?_
    intro hdvd
    apply ha
    rw [← htonat]
    exact (ZMod.natCast_zmod_eq_zero_iff_dvd _ _).mpr hdvd
  rw [hgcd] at hinv
  rw [htonat] at hinv
  rw [intCast_tsMod]
  push_cast at hinv
  exact eq_inv_of_mul_eq_one_left hinv

/-! ## `PolynomialSecretSharing`: the Shamir engine from `shamir.ts` -/

/-- `Share` from `types.ts`: `{id: number, value: bigint}`. The id is carried
as `ℤ` because the source mixes it into bigint arithmetic via `BigInt(...)`. -/
structure Share where
  id : ℤ
  value : ℤ
deriving DecidableEq

instance : Inhabited Share := ⟨⟨0, 0⟩⟩

/-- `threshold`/`totalShares` from `SecretSharingConfig` in `types.ts`. -/
structure SecretSharingConfig where
  threshold : ℕ
  totalShares : ℕ
deriving DecidableEq

/-- The inner `numerator` loop of `lagrangeInterpolation`:
`numerator = mod(numerator * BigInt(-shares[j].id), prime)` over all `j ≠ i`. -/
def lagrangeNumerator (shares : List Share) (i : ℕ) : ℤ :=
  (List.range shares.length).foldl
    (fun numerator j =>
      if i ≠ j then tsMod (numerator * -(shares.getD j default).id) (PRIME : ℤ)
      else numerator) 1

/-- The inner `denominator` loop of `lagrangeInterpolation`:
`denominator = mod(denominator * BigInt(shares[i].id - shares[j].id), prime)`
over all `j ≠ i`. -/
def lagrangeDenominator (shares : List Share) (i : ℕ) : ℤ :=
  (List.range shares.length).foldl
    (fun denominator j =>
      if i ≠ j then
        tsMod (denominator * ((shares.getD i default).id - (shares.getD j default).id))
          (PRIME : ℤ)
      else denominator) 1

/-- `lagrangeInterpolation(shares)` from `shamir.ts`: the outer loop
accumulates `result = mod(result + value_i * lagrangeCoeff_i, prime)` where
`lagrangeCoeff_i = mod(numerator_i * modInverse(denominator_i, prime), prime)`. -/
def lagrangeInterpolation (shares : List Share) : ℤ :=
  (List.range shares.length).foldl
    (fun result i =>
      tsMod (result + (shares.getD i default).value *
        tsMod (lagrangeNumerator shares i *
          modInverse (lagrangeDenominator shares i) (PRIME : ℤ)) (PRIME : ℤ))
        (PRIME : ℤ)) 0

/-- The byte-accumulation in `generateCoefficients`:
`coeff = (coeff << 8n) + BigInt(randomBytes[j])` over the 32 random bytes,
then `coeff = coeff % prime` (TypeScript truncating `%`). -/
def coefficientFromBytes (randomBytes : List ℕ) : ℤ :=
  Int.tmod (randomBytes.foldl (fun (coeff : ℤ) (b : ℕ) => coeff * 256 + (b : ℤ)) 0)
    (PRIME : ℤ)

/-- `generateCoefficients(threshold, secret)` from `shamir.ts`: the constant
coefficient is the raw secret; coefficients `1 .. threshold-1` come from the
secure random source, modelled by the byte stream `rand`. -/
def generateCoefficients (threshold : ℕ) (secret : ℤ) (rand : ℕ → List ℕ) : List ℤ :=
  secret :: (List.range (threshold - 1)).map (fun i => coefficientFromBytes (rand (i + 1)))

/-- `evaluatePolynomial(coefficients, x)` from `shamir.ts`: accumulates
`result = mod(result + coeff * xPower, prime)`; `xPower = mod(xPower * x, prime)`. -/
def evaluatePolynomial (coefficients : List ℤ) (x : ℤ) : ℤ :=
  (coefficients.foldl
    (fun acc coeff =>
      (tsMod (acc.1 + coeff * acc.2) (PRIME : ℤ), tsMod (acc.2 * x) (PRIME : ℤ)))
    ((0 : ℤ), (1 : ℤ))).1

/-- `splitSecret(secret, config)` from `shamir.ts`; the secure random source
feeding `generateCoefficients` is passed explicitly as `rand`. -/
def splitSecret (secret : ℤ) (config : SecretSharingConfig) (rand : ℕ → List ℕ) :
    Except String (List Share) :=
  if config.threshold > config.totalShares then
    .error "Threshold cannot be greater than total shares"
  else if config.threshold < 2 then
    .error "Threshold must be at least 2"
  else
    let coefficients := generateCoefficients config.threshold secret rand
    .ok ((List.range' 1 config.totalShares).map
      (fun i : ℕ => { id := (i : ℤ), value := evaluatePolynomial coefficients (i : ℤ) }))

/-- `recoverSecret(shares, threshold)` from `shamir.ts`. -/
def recoverSecret (shares : List Share) (threshold : ℕ) : Except String ℤ :=
  if shares.length < threshold then
    .error ("Need at least " ++ toString threshold ++ " shares to recover secret")
  else
    .ok (lagrangeInterpolation (shares.take threshold))

/-! ## Casting the Shamir loops into `ZMod PRIME` -/

theorem foldl_tsMod_add (g : ℕ → ℤ) :
    ∀ n : ℕ,
      (((List.range n).foldl (fun res i => tsMod (res + g i) (PRIME : ℤ)) 0 : ℤ) :
          ZMod PRIME) =
        ∑ i ∈ Finset.range n, ((g i : ℤ) : ZMod PRIME) := by
  intro n
  induction n with
  | zero => simp
  | succ n ih =>
    rw [List.range_succ, List.foldl_append, List.foldl_cons, List.foldl_nil,
      intCast_tsMod, Int.cast_add, ih, Finset.sum_range_succ]

theorem foldl_tsMod_mul (h : ℕ → ℤ) (i : ℕ) :
    ∀ n : ℕ,
      (((List.range n).foldl
          (fun acc j => if i ≠ j then tsMod (acc * h j) (PRIME : ℤ) else acc) 1 : ℤ) :
          ZMod PRIME) =
        ∏ j ∈ (Finset.range n).erase i, ((h j : ℤ) : ZMod PRIME) := by
  intro n
  induction n with
  | zero => simp
  | succ n ih =>
    rw [List.range_succ, List.foldl_append, List.foldl_cons, List.foldl_nil,
      Finset.range_succ]
    by_cases hin : i = n
    · subst hin
      rw [if_neg (by simp), Finset.erase_insert (Finset.not_mem_range_self),
        ← Finset.erase_eq_of_not_mem (Finset.not_mem_range_self (n := i)), ih]
    · rw [if_pos (hin : i ≠ n),
        Finset.erase_insert_of_ne (fun hc => hin hc.symm),
        Finset.prod_insert (fun hc => Finset.not_mem_range_self (Finset.mem_of_mem_erase hc)),
        intCast_tsMod, Int.cast_mul, ih]
      ring

theorem lagrangeNumerator_cast (shares : List Share) (i : ℕ) :
    ((lagrangeNumerator shares i : ℤ) : ZMod PRIME) =
      ∏ j ∈ (Finset.range shares.length).erase i,
        ((-(shares.getD j default).id : ℤ) : ZMod PRIME) := by
  unfold lagrangeNumerator
  exact foldl_tsMod_mul (fun j => -(shares.getD j default).id) i shares.length

theorem lagrangeDenominator_cast (shares : List Share) (i : ℕ) :
    ((lagrangeDenominator shares i : ℤ) : ZMod PRIME) =
      ∏ j ∈ (Finset.range shares.length).erase i,
        (((shares.getD i default).id - (shares.getD j default).id : ℤ) : ZMod PRIME) := by
  unfold lagrangeDenominator
  exact foldl_tsMod_mul
    (fun j => (shares.getD i default).id - (shares.getD j default).id) i shares.length

/-- The image of `lagrangeInterpolation` in the field, as the standard
Lagrange sum, provided no denominator vanishes. -/
theorem lagrangeInterpolation_cast (shares : List Share)
    (hden : ∀ i ∈ Finset.range shares.length,
      (∏ j ∈ (Finset.range shares.length).erase i,
        (((shares.getD i default).id - (shares.getD j default).id : ℤ) : ZMod PRIME)) ≠ 0) :
    ((lagrangeInterpolation shares : ℤ) : ZMod PRIME) =
      ∑ i ∈ Finset.range shares.length,
        (((shares.getD i default).value : ℤ) : ZMod PRIME) *
          ((∏ j ∈ (Finset.range shares.length).erase i,
              ((-(shares.getD j default).id : ℤ) : ZMod PRIME)) *
            (∏ j ∈ (Finset.range shares.length).erase i,
              (((shares.getD i default).id - (shares.getD j default).id : ℤ) :
                ZMod PRIME))⁻¹) := by
  unfold lagrangeInterpolation
  rw [foldl_tsMod_add
    (fun i => (shares.getD i default).value *
      tsMod (lagrangeNumerator shares i *
        modInverse (lagrangeDenominator shares i) (PRIME : ℤ)) (PRIME : ℤ))
    shares.length]
  refine Finset.sum_congr rfl fun i hi => ?_
  rw [Int.cast_mul, intCast_tsMod, Int.cast_mul, lagrangeNumerator_cast,
    modInverse_spec _ (by rw [lagrangeDenominator_cast]; exact hden i hi),
    lagrangeDenominator_cast]

/-! ## The share-generating polynomial over `ZMod PRIME` -/

/-- The polynomial `Σ cₖ Xᵏ` over `ZMod PRIME` whose coefficient list the
engine evaluates via `evaluatePolynomial`. -/
noncomputable def sharePoly (coefficients : List ℤ) : Polynomial (ZMod PRIME) :=
  ∑ k ∈ Finset.range coefficients.length,
    Polynomial.C ((coefficients.getD k 0 : ℤ) : ZMod PRIME) * Polynomial.X ^ k

theorem sharePoly_degree_lt (coefficients : List ℤ) :
    (sharePoly coefficients).degree < (coefficients.length : ℕ) := by
  refine lt_of_le_of_lt (Polynomial.degree_sum_le _ _) ?_
  rw [Finset.sup_lt_iff (WithBot.bot_lt_coe _)]
  intro k hk
  refine lt_of_le_of_lt (Polynomial.degree_C_mul_X_pow_le _ _) ?_
  exact_mod_cast Finset.mem_range.mp hk

theorem sharePoly_eval (coefficients : List ℤ) (x : ZMod PRIME) :
    (sharePoly coefficients).eval x =
      ∑ k ∈ Finset.range coefficients.length,
        ((coefficients.getD k 0 : ℤ) : ZMod PRIME) * x ^ k := by
  unfold sharePoly
  rw [Polynomial.eval_finset_sum]
  refine Finset.sum_congr rfl fun k _ => ?_
  rw [Polynomial.eval_mul, Polynomial.eval_C, Polynomial.eval_pow, Polynomial.eval_X]

theorem sharePoly_eval_zero (coefficients : List ℤ) (hne : coefficients ≠ []) :
    (sharePoly coefficients).eval 0 = ((coefficients.getD 0 0 : ℤ) : ZMod PRIME) := by
  rw [sharePoly_eval]
  rw [Finset.sum_eq_single 0]
  · rw [pow_zero, mul_one]
  · intro k _ hk
    rw [zero_pow hk, mul_zero]
  · intro h0
    exact absurd (Finset.mem_range.mpr (List.length_pos.mpr hne)) h0

/-- The fold of `evaluatePolynomial`, with general accumulators, in the field. -/
theorem evaluatePolynomial_fold (x : ℤ) :
    ∀ (coefficients : List ℤ) (r xp : ℤ),
      (((coefficients.foldl
          (fun acc coeff =>
            (tsMod (acc.1 + coeff * acc.2) (PRIME : ℤ), tsMod (acc.2 * x) (PRIME : ℤ)))
          (r, xp)).1 : ℤ) : ZMod PRIME) =
        (r : ZMod PRIME) +
          ∑ k ∈ Finset.range coefficients.length,
            ((coefficients.getD k 0 : ℤ) : ZMod PRIME) * (xp : ZMod PRIME) *
              ((x : ℤ) : ZMod PRIME) ^ k := by
  intro coefficients
  induction coefficients with
  | nil => intro r xp; simp
  | cons c t ih =>
    intro r xp
    rw [List.foldl_cons,
      ih (tsMod (r + c * xp) (PRIME : ℤ)) (tsMod (xp * x) (PRIME : ℤ)),
      intCast_tsMod, List.length_cons, Finset.sum_range_succ']
    have hsum :
        ∑ k ∈ Finset.range t.length,
            ((t.getD k 0 : ℤ) : ZMod PRIME) *
              ((tsMod (xp * x) (PRIME : ℤ) : ℤ) : ZMod PRIME) *
              ((x : ℤ) : ZMod PRIME) ^ k =
          ∑ k ∈ Finset.range t.length,
            (((c :: t).getD (k + 1) 0 : ℤ) : ZMod PRIME) * (xp : ZMod PRIME) *
              ((x : ℤ) : ZMod PRIME) ^ (k + 1) := by
      refine Finset.sum_congr rfl fun k _ => ?_
      rw [List.getD_cons_succ, intCast_tsMod]
      push_cast
      ring
    rw [hsum, List.getD_cons_zero, pow_zero]
    push_cast
    ring

theorem evaluatePolynomial_cast (coefficients : List ℤ) (x : ℤ) :
    ((evaluatePolynomial coefficients x : ℤ) : ZMod PRIME) =
      (sharePoly coefficients).eval ((x : ℤ) : ZMod PRIME) := by
  unfold evaluatePolynomial
  rw [evaluatePolynomial_fold x coefficients 0 1, sharePoly_eval]
  push_cast
  rw [zero_add]
  refine Finset.sum_congr rfl fun k _ => ?_
  ring

/-! ## Correctness of `lagrangeInterpolation` via polynomial interpolation -/

/-- Master correctness of the engine's recovery: if the shares' values are
the evaluations of a polynomial `f` with `f.degree < shares.length` at the
shares' ids, and the ids are pairwise distinct in the field, then the
engine's Lagrange sum lands on `f.eval 0` (the shared secret). -/
theorem lagrange_recovers (shares : List Share) (f : Polynomial (ZMod PRIME))
    (hdeg : f.degree < (shares.length : ℕ))
    (hinj : Set.InjOn (fun k : ℕ => (((shares.getD k default).id : ℤ) : ZMod PRIME))
      ↑(Finset.range shares.length))
    (hval : ∀ k ∈ Finset.range shares.length,
      (((shares.getD k default).value : ℤ) : ZMod PRIME) =
        f.eval (((shares.getD k default).id : ℤ) : ZMod PRIME)) :
    ((lagrangeInterpolation shares : ℤ) : ZMod PRIME) = f.eval 0 := by
  classical
  set v : ℕ → ZMod PRIME :=
    fun k => (((shares.getD k default).id : ℤ) : ZMod PRIME) with hv
  have hne : ∀ i ∈ Finset.range shares.length,
      ∀ j ∈ (Finset.range shares.length).erase i, v i - v j ≠ 0 := by
    intro i hi j hj
    have hji := Finset.mem_of_mem_erase hj
    have hij : j ≠ i := Finset.ne_of_mem_erase hj
    refine sub_ne_zero.mpr fun hc => hij ?_
    exact hinj (Finset.mem_coe.mpr hji) (Finset.mem_coe.mpr hi) hc.symm
  have hden : ∀ i ∈ Finset.range shares.length,
      (∏ j ∈ (Finset.range shares.length).erase i,
        (((shares.getD i default).id - (shares.getD j default).id : ℤ) :
          ZMod PRIME)) ≠ 0 := by
    intro i hi
    rw [Finset.prod_ne_zero_iff]
    intro j hj
    have h := hne i hi j hj
    rw [Int.cast_sub]
    exact h
  rw [lagrangeInterpolation_cast shares hden]
  have hf := Lagrange.eq_interpolate (v := v) hinj
    (by rw [Finset.card_range]; exact hdeg)
  have heval0 : f.eval 0 =
      ∑ i ∈ Finset.range shares.length,
        f.eval (v i) *
          ((∏ j ∈ (Finset.range shares.length).erase i, -v j) *
            (∏ j ∈ (Finset.range shares.length).erase i, (v i - v j))⁻¹) := by
    conv_lhs => rw [hf]
    rw [Lagrange.interpolate_apply, Polynomial.eval_finset_sum]
    refine Finset.sum_congr rfl fun i hi => ?_
    rw [Polynomial.eval_mul, Polynomial.eval_C]
    congr 1
    rw [Lagrange.basis, Polynomial.eval_prod]
    have hterm : ∀ j ∈ (Finset.range shares.length).erase i,
        Polynomial.eval 0 (Lagrange.basisDivisor (v i) (v j)) =
          (v i - v j)⁻¹ * -v j := by
      intro j _
      rw [Lagrange.basisDivisor, Polynomial.eval_mul, Polynomial.eval_C,
        Polynomial.eval_sub, Polynomial.eval_X, Polynomial.eval_C, zero_sub]
    rw [Finset.prod_congr rfl hterm, Finset.prod_mul_distrib,
      Finset.prod_inv_distrib]
    ring
  rw [heval0]
  refine Finset.sum_congr rfl fun i hi => ?_
  rw [hval i hi]
  simp only [hv, Int.cast_neg, Int.cast_sub]

/-! ## Range facts and plumbing for the round-trip theorems -/

theorem foldl_tsMod_step_bounds {α : Type} (f : ℤ → α → ℤ) :
    ∀ (l : List α) (init : ℤ), l ≠ [] →
      0 ≤ l.foldl (fun acc x => tsMod (f acc x) (PRIME : ℤ)) init ∧
        l.foldl (fun acc x => tsMod (f acc x) (PRIME : ℤ)) init < (PRIME : ℤ) := by
  intro l
  induction l with
  | nil => intro init h; exact absurd rfl h
  | cons x t ih =>
    intro init _
    cases t with
    | nil =>
      simp only [List.foldl_cons, List.foldl_nil]
      exact ⟨tsMod_nonneg _ PRIME_pos, tsMod_lt _ PRIME_pos⟩
    | cons y u =>
      rw [List.foldl_cons]
      exact ih _ (by simp)

theorem lagrangeInterpolation_bounds (shares : List Share) (h : shares ≠ []) :
    0 ≤ lagrangeInterpolation shares ∧ lagrangeInterpolation shares < (PRIME : ℤ) := by
  unfold lagrangeInterpolation
  refine foldl_tsMod_step_bounds
    (fun result i => result + (shares.getD i default).value *
      tsMod (lagrangeNumerator shares i *
        modInverse (lagrangeDenominator shares i) (PRIME : ℤ)) (PRIME : ℤ))
    (List.range shares.length) 0 ?_
  simpa [List.range_eq_nil] using h

theorem evaluatePolynomial_fold_bounds (x : ℤ) :
    ∀ (coefficients : List ℤ) (r xp : ℤ), coefficients ≠ [] →
      0 ≤ (coefficients.foldl
          (fun acc coeff =>
            (tsMod (acc.1 + coeff * acc.2) (PRIME : ℤ), tsMod (acc.2 * x) (PRIME : ℤ)))
          (r, xp)).1 ∧
        (coefficients.foldl
          (fun acc coeff =>
            (tsMod (acc.1 + coeff * acc.2) (PRIME : ℤ), tsMod (acc.2 * x) (PRIME : ℤ)))
          (r, xp)).1 < (PRIME : ℤ) := by
  intro coefficients
  induction coefficients with
  | nil => intro r xp h; exact absurd rfl h
  | cons c t ih =>
    intro r xp _
    cases t with
    | nil =>
      simp only [List.foldl_cons, List.foldl_nil]
      exact ⟨tsMod_nonneg _ PRIME_pos, tsMod_lt _ PRIME_pos⟩
    | cons d u =>
      rw [List.foldl_cons]
      exact ih _ _ (by simp)

theorem evaluatePolynomial_bounds (coefficients : List ℤ) (x : ℤ)
    (h : coefficients ≠ []) :
    0 ≤ evaluatePolynomial coefficients x ∧
      evaluatePolynomial coefficients x < (PRIME : ℤ) :=
  evaluatePolynomial_fold_bounds x coefficients 0 1 h

theorem intCast_inj_of_range {a b : ℤ} (ha : 0 ≤ a) (ha' : a < (PRIME : ℤ))
    (hb : 0 ≤ b) (hb' : b < (PRIME : ℤ))
    (h : ((a : ℤ) : ZMod PRIME) = ((b : ℤ) : ZMod PRIME)) : a = b := by
  rw [ZMod.intCast_eq_intCast_iff'] at h
  rwa [Int.emod_eq_of_lt ha ha', Int.emod_eq_of_lt hb hb'] at h

theorem generateCoefficients_length (threshold : ℕ) (secret : ℤ) (rand : ℕ → List ℕ)
    (h : 1 ≤ threshold) :
    (generateCoefficients threshold secret rand).length = threshold := by
  simp only [generateCoefficients, List.length_cons, List.length_map, List.length_range]
  omega

theorem generateCoefficients_head (threshold : ℕ) (secret : ℤ) (rand : ℕ → List ℕ) :
    (generateCoefficients threshold secret rand).getD 0 0 = secret := rfl

/-- `splitSecret` on a valid config returns one share per id `1..totalShares`,
each valued by the polynomial evaluation. -/
theorem splitSecret_eq_ok (secret : ℤ) (cfg : SecretSharingConfig) (rand : ℕ → List ℕ)
    (ht2 : 2 ≤ cfg.threshold) (htT : cfg.threshold ≤ cfg.totalShares) :
    splitSecret secret cfg rand = .ok ((List.range' 1 cfg.totalShares).map
      (fun i : ℕ =>
        { id := (i : ℤ),
          value := evaluatePolynomial
            (generateCoefficients cfg.threshold secret rand) (i : ℤ) })) := by
  unfold splitSecret
  rw [if_neg (by omega), if_neg (by omega)]

/-- Central recovery lemma: `recoverSecret` applied to any `threshold`-sized
duplicate-free-id selection of the shares of a valid split returns the
secret reduced modulo the prime. -/
theorem recover_from_split (secret : ℤ) (cfg : SecretSharingConfig)
    (rand : ℕ → List ℕ) (shareList : List Share)
    (ht2 : 2 ≤ cfg.threshold) (htT : cfg.threshold ≤ cfg.totalShares)
    (hmax : cfg.totalShares < PRIME)
    (hsplit : splitSecret secret cfg rand = .ok shareList)
    (sub : List Share) (hlen : sub.length = cfg.threshold)
    (hnd : (sub.map Share.id).Nodup)
    (hmem : ∀ sh ∈ sub, sh ∈ shareList) :
    recoverSecret sub cfg.threshold = .ok (secret % (PRIME : ℤ)) := by
  have hcoeffs : (generateCoefficients cfg.threshold secret rand).length =
      cfg.threshold := generateCoefficients_length _ _ _ (by omega)
  set coeffs : List ℤ := generateCoefficients cfg.threshold secret rand with hco
  have hlistform : shareList = (List.range' 1 cfg.totalShares).map
      (fun i : ℕ => { id := (i : ℤ), value := evaluatePolynomial coeffs (i : ℤ) }) := by
    have h := splitSecret_eq_ok secret cfg rand ht2 htT
    rw [hsplit] at h
    injection h
  have hshape : ∀ sh ∈ sub, ∃ i : ℕ, 1 ≤ i ∧ i < 1 + cfg.totalShares ∧
      sh = { id := (i : ℤ), value := evaluatePolynomial coeffs (i : ℤ) } := by
    intro sh hsh
    have hmem' := hmem sh hsh
    rw [hlistform] at hmem'
    obtain ⟨i, hi, rfl⟩ := List.mem_map.mp hmem'
    exact ⟨i, (List.mem_range'_1.mp hi).1, (List.mem_range'_1.mp hi).2, rfl⟩
  have hid_bounds : ∀ sh ∈ sub, 1 ≤ sh.id ∧ sh.id < (PRIME : ℤ) ∧
      sh.value = evaluatePolynomial coeffs sh.id := by
    intro sh hsh
    obtain ⟨i, h1, h2, rfl⟩ := hshape sh hsh
    refine ⟨?_, ?_, rfl⟩
    · show (1 : ℤ) ≤ (i : ℤ)
      exact_mod_cast h1
    · show (i : ℤ) < (PRIME : ℤ)
      have hi : (i : ℤ) < 1 + (cfg.totalShares : ℤ) := by exact_mod_cast h2
      have hP : (cfg.totalShares : ℤ) < (PRIME : ℤ) := by exact_mod_cast hmax
      omega
  have hgetD_mem : ∀ k, k < sub.length → sub.getD k default ∈ sub := by
    intro k hk
    rw [List.getD_eq_getElem sub default hk]
    exact List.getElem_mem hk
  -- the generating polynomial
  have hdeg : (sharePoly coeffs).degree < (sub.length : ℕ) := by
    have := sharePoly_degree_lt coeffs
    rw [hcoeffs] at this
    rwa [hlen]
  have hinj : Set.InjOn (fun k : ℕ => (((sub.getD k default).id : ℤ) : ZMod PRIME))
      ↑(Finset.range sub.length) := by
    intro k hk l hl hcast
    have hk' : k < sub.length := Finset.mem_range.mp (Finset.mem_coe.mp hk)
    have hl' : l < sub.length := Finset.mem_range.mp (Finset.mem_coe.mp hl)
    have hbk := hid_bounds _ (hgetD_mem k hk')
    have hbl := hid_bounds _ (hgetD_mem l hl')
    have hideq : (sub.getD k default).id = (sub.getD l default).id :=
      intCast_inj_of_range (by omega) hbk.2.1 (by omega) hbl.2.1 hcast
    have hmapk : k < (sub.map Share.id).length := by rwa [List.length_map]
    have hmapl : l < (sub.map Share.id).length := by rwa [List.length_map]
    have hget : (sub.map Share.id).get ⟨k, hmapk⟩ = (sub.map Share.id).get ⟨l, hmapl⟩ := by
      rw [List.get_map, List.get_map]
      rw [← List.getD_eq_get sub default hk', ← List.getD_eq_get sub default hl']
      exact hideq
    have := (hnd.get_inj_iff).mp hget
    exact congrArg Fin.val this
  have hval : ∀ k ∈ Finset.range sub.length,
      (((sub.getD k default).value : ℤ) : ZMod PRIME) =
        (sharePoly coeffs).eval (((sub.getD k default).id : ℤ) : ZMod PRIME) := by
    intro k hk
    have hk' : k < sub.length := Finset.mem_range.mp hk
    have hb := hid_bounds _ (hgetD_mem k hk')
    rw [hb.2.2, evaluatePolynomial_cast]
  have hmain := lagrange_recovers sub (sharePoly coeffs) hdeg hinj hval
  have hne : sub ≠ [] := by
    intro hc
    rw [hc] at hlen
    simp at hlen
    omega
  have hcne : coeffs ≠ [] := by rw [hco]; exact List.cons_ne_nil _ _
  have heval0 : (sharePoly coeffs).eval 0 = ((secret : ℤ) : ZMod PRIME) := by
    rw [sharePoly_eval_zero coeffs hcne, hco, generateCoefficients_head]
  have hcast : ((lagrangeInterpolation sub : ℤ) : ZMod PRIME) =
      ((secret % (PRIME : ℤ) : ℤ) : ZMod PRIME) := by
    rw [hmain, heval0, ZMod.intCast_eq_intCast_iff']
    rw [Int.emod_emod_of_dvd secret dvd_rfl]
  have hbounds := lagrangeInterpolation_bounds sub hne
  have hmod_nonneg : 0 ≤ secret % (PRIME : ℤ) :=
    Int.emod_nonneg secret (ne_of_gt PRIME_pos)
  have hmod_lt : secret % (PRIME : ℤ) < (PRIME : ℤ) :=
    Int.emod_lt_of_pos secret PRIME_pos
  have hfinal : lagrangeInterpolation sub = secret % (PRIME : ℤ) :=
    intCast_inj_of_range hbounds.1 hbounds.2 hmod_nonneg hmod_lt hcast
  have htake : sub.take cfg.threshold = sub := by
    rw [← hlen]
    exact List.take_length sub
  unfold recoverSecret
  rw [if_neg (by omega), htake, hfinal]

theorem pow53_lt_PRIME : 2 ^ 53 < PRIME := by norm_num [PRIME]

/-- The ids of a split's share list are the casts of `1..totalShares`. -/
theorem splitShares_map_id (secret : ℤ) (cfg : SecretSharingConfig)
    (rand : ℕ → List ℕ) (shares : List Share)
    (ht2 : 2 ≤ cfg.threshold) (htT : cfg.threshold ≤ cfg.totalShares)
    (hsplit : splitSecret secret cfg rand = .ok shares) :
    shares.map Share.id = (List.range' 1 cfg.totalShares).map (fun i : ℕ => (i : ℤ)) := by
  have h := splitSecret_eq_ok secret cfg rand ht2 htT
  rw [hsplit] at h
  have h' := h
  injection h' with h''
  rw [h'', List.map_map]
  rfl

/-! ## Claims C1, C2, C6, C7, C10: the Shamir engine -/

/-- C1: for every secret `0 ≤ s < PRIME`, every valid config
(`2 ≤ threshold ≤ totalShares`, with `totalShares` in the exact-integer
range of a JavaScript `number`), and every draw of random coefficients,
recovering from the first `threshold` shares of `splitSecret` returns
exactly `s`. -/
theorem claim_C1_roundtrip (secret : ℤ) (h0 : 0 ≤ secret)
    (h1 : secret < (PRIME : ℤ)) (cfg : SecretSharingConfig)
    (ht2 : 2 ≤ cfg.threshold) (htT : cfg.threshold ≤ cfg.totalShares)
    (hmachine : cfg.totalShares < 2 ^ 53) (rand : ℕ → List ℕ) :
    ∃ shares, splitSecret secret cfg rand = .ok shares ∧
      recoverSecret (shares.take cfg.threshold) cfg.threshold = .ok secret := by
  refine ⟨_, splitSecret_eq_ok secret cfg rand ht2 htT, ?_⟩
  set shares : List Share := (List.range' 1 cfg.totalShares).map
    (fun i : ℕ =>
      { id := (i : ℤ),
        value := evaluatePolynomial
          (generateCoefficients cfg.threshold secret rand) (i : ℤ) }) with hsh
  have hsplit : splitSecret secret cfg rand = .ok shares :=
    splitSecret_eq_ok secret cfg rand ht2 htT
  have hlenshares : shares.length = cfg.totalShares := by
    rw [hsh, List.length_map, List.length_range']
  have hmax : cfg.totalShares < PRIME := lt_trans hmachine pow53_lt_PRIME
  have hlen : (shares.take cfg.threshold).length = cfg.threshold := by
    rw [List.length_take, hlenshares]
    omega
  have hndfull : (shares.map Share.id).Nodup := by
    rw [splitShares_map_id secret cfg rand shares ht2 htT hsplit]
    exact (List.nodup_range' 1 cfg.totalShares).map Nat.cast_injective
  have hnd : ((shares.take cfg.threshold).map Share.id).Nodup := by
    have hsub : List.Sublist ((shares.take cfg.threshold).map Share.id)
        (shares.map Share.id) := (List.take_sublist _ _).map _
    exact hsub.nodup hndfull
  have hmem : ∀ sh ∈ shares.take cfg.threshold, sh ∈ shares :=
    fun sh hm => List.take_subset _ _ hm
  have := recover_from_split secret cfg rand shares ht2 htT hmax hsplit
    (shares.take cfg.threshold) hlen hnd hmem
  rwa [Int.emod_eq_of_lt h0 h1] at this

theorem claim_C1_roundtrip_witness :
    ∃ shares, splitSecret 5 ⟨2, 3⟩ (fun _ => []) = .ok shares ∧
      recoverSecret (shares.take 2) 2 = .ok 5 :=
  claim_C1_roundtrip 5 (by decide) (by decide) ⟨2, 3⟩ (by decide) (by decide)
    (by decide) (fun _ => [])

/-- C2: for one fixed output of `splitSecret` (valid config, secret in
`[0, PRIME)`), every `threshold`-sized selection of the produced shares with
pairwise-distinct ids recovers the same value, namely the secret itself —
e.g. shares `{1,3,5}` and `{2,4,5}` of a 5-share threshold-3 split agree. -/
theorem claim_C2_any_subset (secret : ℤ) (h0 : 0 ≤ secret)
    (h1 : secret < (PRIME : ℤ)) (cfg : SecretSharingConfig)
    (ht2 : 2 ≤ cfg.threshold) (htT : cfg.threshold ≤ cfg.totalShares)
    (hmachine : cfg.totalShares < 2 ^ 53) (rand : ℕ → List ℕ)
    (shares : List Share) (hsplit : splitSecret secret cfg rand = .ok shares)
    (sub : List Share) (hlen : sub.length = cfg.threshold)
    (hnd : (sub.map Share.id).Nodup) (hmem : ∀ sh ∈ sub, sh ∈ shares) :
    recoverSecret sub cfg.threshold = .ok secret := by
  have hmax : cfg.totalShares < PRIME := lt_trans hmachine pow53_lt_PRIME
  have := recover_from_split secret cfg rand shares ht2 htT hmax hsplit
    sub hlen hnd hmem
  rwa [Int.emod_eq_of_lt h0 h1] at this

theorem claim_C2_any_subset_witness :
    recoverSecret [⟨1, 9⟩, ⟨3, 19⟩, ⟨5, 37⟩] 3 = .ok 7 ∧
      recoverSecret [⟨2, 13⟩, ⟨4, 27⟩, ⟨5, 37⟩] 3 = .ok 7 := by
  have hsplit : splitSecret 7 ⟨3, 5⟩ (fun _ => [1]) =
      .ok [⟨1, 9⟩, ⟨2, 13⟩, ⟨3, 19⟩, ⟨4, 27⟩, ⟨5, 37⟩] := by rfl
  constructor
  · exact claim_C2_any_subset 7 (by decide) (by decide) ⟨3, 5⟩ (by decide)
      (by decide) (by decide) (fun _ => [1]) _ hsplit
      [⟨1, 9⟩, ⟨3, 19⟩, ⟨5, 37⟩] rfl (by decide) (by decide)
  · exact claim_C2_any_subset 7 (by decide) (by decide) ⟨3, 5⟩ (by decide)
      (by decide) (by decide) (fun _ => [1]) _ hsplit
      [⟨2, 13⟩, ⟨4, 27⟩, ⟨5, 37⟩] rfl (by decide) (by decide)

/-- C6: `splitSecret` errors exactly when `threshold < 2` or
`threshold > totalShares` (so it succeeds at the boundary
`threshold = totalShares ≥ 2`), and success returns `totalShares` shares. -/
theorem claim_C6_config_validation (secret : ℤ) (rand : ℕ → List ℕ)
    (cfg : SecretSharingConfig) :
    ((splitSecret secret cfg rand).isOk = true ↔
      (2 ≤ cfg.threshold ∧ cfg.threshold ≤ cfg.totalShares)) ∧
    (∀ shares, splitSecret secret cfg rand = .ok shares →
      shares.length = cfg.totalShares) := by
  constructor
  · unfold splitSecret
    by_cases h1 : cfg.threshold > cfg.totalShares
    · rw [if_pos h1]
      simp [Except.isOk, Except.toBool]
      omega
    · rw [if_neg h1]
      by_cases h2 : cfg.threshold < 2
      · rw [if_pos h2]
        simp [Except.isOk, Except.toBool]
        omega
      · rw [if_neg h2]
        simp [Except.isOk, Except.toBool]
        omega
  · intro shares hsh
    unfold splitSecret at hsh
    by_cases h1 : cfg.threshold > cfg.totalShares
    · rw [if_pos h1] at hsh
      exact absurd hsh (by simp)
    · rw [if_neg h1] at hsh
      by_cases h2 : cfg.threshold < 2
      · rw [if_pos h2] at hsh
        exact absurd hsh (by simp)
      · rw [if_neg h2] at hsh
        injection hsh with hsh
        rw [← hsh, List.length_map, List.length_range']

theorem claim_C6_config_validation_witness :
    (splitSecret 0 ⟨2, 2⟩ (fun _ => [])).isOk = true ∧
      ∃ shares, splitSecret 0 ⟨2, 2⟩ (fun _ => []) = .ok shares ∧
        shares.length = 2 := by
  have h := claim_C6_config_validation 0 (fun _ => []) ⟨2, 2⟩
  exact ⟨h.1.mpr (by decide), _, rfl, h.2 _ rfl⟩

/-- C7 (amended): `recoverSecret` with fewer shares than the threshold
always fails, and its message reports the needed count (`threshold`); the
message does **not** include the actual supplied count (see the
counterexample). -/
theorem claim_C7_insufficient_fails (shares : List Share) (threshold : ℕ)
    (h : shares.length < threshold) :
    recoverSecret shares threshold =
      .error ("Need at least " ++ toString threshold ++ " shares to recover secret") ∧
    (toString threshold).data <:+:
      ("Need at least " ++ toString threshold ++ " shares to recover secret").data := by
  constructor
  · unfold recoverSecret
    rw [if_pos h]
  · refine ⟨"Need at least ".data, " shares to recover secret".data, ?_⟩
    simp [String.data_append]

theorem claim_C7_insufficient_fails_witness :
    ([] : List Share).length < 2 ∧
      (recoverSecret [] 2 =
        .error ("Need at least " ++ toString 2 ++ " shares to recover secret") ∧
      (toString 2).data <:+:
        ("Need at least " ++ toString 2 ++ " shares to recover secret").data) :=
  ⟨by decide, claim_C7_insufficient_fails [] 2 (by decide)⟩

/-- C7, as stated, is false: with 0 shares supplied and threshold 2 the
call fails, but the message `"Need at least 2 shares to recover secret"`
reports only the needed count — the actual supplied count (0) appears
nowhere in it. -/
theorem claim_C7_counterexample :
    recoverSecret [] 2 = .error "Need at least 2 shares to recover secret" ∧
      ¬ (toString (List.length ([] : List Share))).data <:+:
        "Need at least 2 shares to recover secret".data := by
  constructor
  · rfl
  · decide

/-- C10: the secret enters `generateCoefficients` unreduced as the constant
coefficient; every produced share value lies in `[0, PRIME)`; and recovery
from any `threshold` distinct-id shares returns `secret % PRIME` — exact
for secrets below the prime, lossy (mod-`PRIME`) for larger ones. -/
theorem claim_C10_secret_mod_prime (secret : ℤ) (h0 : 0 ≤ secret)
    (cfg : SecretSharingConfig)
    (ht2 : 2 ≤ cfg.threshold) (htT : cfg.threshold ≤ cfg.totalShares)
    (hmachine : cfg.totalShares < 2 ^ 53) (rand : ℕ → List ℕ) :
    (generateCoefficients cfg.threshold secret rand).getD 0 0 = secret ∧
    ∃ shares, splitSecret secret cfg rand = .ok shares ∧
      (∀ sh ∈ shares, 0 ≤ sh.value ∧ sh.value < (PRIME : ℤ)) ∧
      (∀ sub : List Share, sub.length = cfg.threshold →
        (sub.map Share.id).Nodup → (∀ sh ∈ sub, sh ∈ shares) →
        recoverSecret sub cfg.threshold = .ok (secret % (PRIME : ℤ))) := by
  refine ⟨generateCoefficients_head _ _ _, _,
    splitSecret_eq_ok secret cfg rand ht2 htT, ?_, ?_⟩
  · intro sh hm
    obtain ⟨i, _, rfl⟩ := List.mem_map.mp hm
    exact evaluatePolynomial_bounds _ _ (List.cons_ne_nil _ _)
  · intro sub hlen hnd hmem
    exact recover_from_split secret cfg rand _ ht2 htT
      (lt_trans hmachine pow53_lt_PRIME)
      (splitSecret_eq_ok secret cfg rand ht2 htT) sub hlen hnd hmem

theorem claim_C10_secret_mod_prime_witness :
    (generateCoefficients 2 ((PRIME : ℤ) + 3) (fun _ => [])).getD 0 0 =
        (PRIME : ℤ) + 3 ∧
      recoverSecret [⟨1, 3⟩, ⟨2, 3⟩] 2 = .ok (((PRIME : ℤ) + 3) % (PRIME : ℤ)) := by
  obtain ⟨hhead, shares, hsplit, _, hrec⟩ :=
    claim_C10_secret_mod_prime ((PRIME : ℤ) + 3) (by decide) ⟨2, 2⟩
      (by decide) (by decide) (by decide) (fun _ => [])
  have hconcrete : splitSecret ((PRIME : ℤ) + 3) ⟨2, 2⟩ (fun _ => []) =
      .ok [⟨1, 3⟩, ⟨2, 3⟩] := by rfl
  rw [hconcrete] at hsplit
  injection hsplit with hsplit
  refine ⟨hhead, hrec [⟨1, 3⟩, ⟨2, 3⟩] rfl (by decide) ?_⟩
  rw [← hsplit]
  intro sh hm
  exact hm

/-! ## `ChunkCodec`: `arrayBufferToBigIntChunks` / `bigIntChunksToArrayBuffer`
from the web file processor -/

/-- `WebFileProcessor.CHUNK_SIZE`: 32 bytes. -/
def CHUNK_SIZE : ℕ := 32

/-- The byte-to-bigint loop of `arrayBufferToBigIntChunks`: iterates the 32
chunk bytes from index 31 down to 0 with
`bigintValue = (bigintValue << 8n) + BigInt(chunkBytes[j])` — i.e. the chunk
is read in little-endian byte order. -/
def chunkBytesToBigInt (chunkBytes : List ℕ) : ℤ :=
  chunkBytes.foldr (fun (b : ℕ) (acc : ℤ) => acc * 256 + (b : ℤ)) 0

/-- One loop round of `arrayBufferToBigIntChunks` builds a fresh zeroed
`Uint8Array(CHUNK_SIZE)` and copies `actualChunkSize = min(CHUNK_SIZE,
remaining)` data bytes into its front: the block is the next (at most) 32
bytes, zero-padded at the high end. -/
def paddedChunk (bytes : List ℕ) : List ℕ :=
  bytes.take CHUNK_SIZE ++ List.replicate (CHUNK_SIZE - (bytes.take CHUNK_SIZE).length) 0

/-- The chunking loop `for (i = 0; i < length; i += CHUNK_SIZE)` of
`arrayBufferToBigIntChunks`; `fuel` bounds the round count (each round
consumes at least one byte, so the buffer length suffices). -/
def chunksAux : ℕ → List ℕ → List ℤ
  | 0, _ => []
  | fuel + 1, bytes =>
    if bytes.isEmpty then []
    else chunkBytesToBigInt (paddedChunk bytes) :: chunksAux fuel (bytes.drop CHUNK_SIZE)

/-- `arrayBufferToBigIntChunks(buffer)` from the web file processor. -/
def arrayBufferToBigIntChunks (buffer : List ℕ) : List ℤ :=
  chunksAux buffer.length buffer

/-- The byte-extraction loop of `bigIntChunksToArrayBuffer`:
`chunkBytes[i] = Number(value & 0xffn); value = value >> 8n` for
`i = 0 .. k-1`. (`& 0xffn` and `>> 8n` on a `bigint` are Euclidean `% 256`
and floor `/ 256`, which is what `%`/`/` denote on `ℤ`.) -/
def bigIntToChunkBytes : ℕ → ℤ → List ℕ
  | 0, _ => []
  | k + 1, value => (value % 256).toNat :: bigIntToChunkBytes k (value / 256)

/-- `bigIntChunksToArrayBuffer(chunks, originalSize)` from the web file
processor: per chunk, `bytesToCopy = min(CHUNK_SIZE, remaining)` bytes are
copied into the zero-initialised result; once `offset >= originalSize` the
loop `break`s, so surplus chunks are ignored and any uncovered tail stays
zero. -/
def bigIntChunksToArrayBuffer : List ℤ → ℕ → List ℕ
  | [], remaining => List.replicate remaining 0
  | chunk :: rest, remaining =>
    if remaining ≤ CHUNK_SIZE then (bigIntToChunkBytes CHUNK_SIZE chunk).take remaining
    else bigIntToChunkBytes CHUNK_SIZE chunk ++
      bigIntChunksToArrayBuffer rest (remaining - CHUNK_SIZE)

theorem chunkBytesToBigInt_nonneg (bs : List ℕ) : 0 ≤ chunkBytesToBigInt bs := by
  induction bs with
  | nil => simp [chunkBytesToBigInt]
  | cons b t ih =>
    have hstep : chunkBytesToBigInt (b :: t) = chunkBytesToBigInt t * 256 + (b : ℤ) := rfl
    rw [hstep]
    have hb : (0 : ℤ) ≤ (b : ℕ) := by exact_mod_cast Nat.zero_le b
    nlinarith

/-- Byte-level inverse: extracting `k` bytes from the integer built out of a
`k`-byte block returns the block. -/
theorem bigIntToChunkBytes_chunkBytesToBigInt :
    ∀ (k : ℕ) (bs : List ℕ), bs.length = k → (∀ b ∈ bs, b < 256) →
      bigIntToChunkBytes k (chunkBytesToBigInt bs) = bs := by
  intro k
  induction k with
  | zero =>
    intro bs hlen _
    rw [List.length_eq_zero.mp hlen]
    rfl
  | succ k ih =>
    intro bs hlen hbytes
    match bs, hlen with
    | b :: t, hlen =>
      have hstep : chunkBytesToBigInt (b :: t) = chunkBytesToBigInt t * 256 + (b : ℤ) := rfl
      have hT := chunkBytesToBigInt_nonneg t
      have hb : b < 256 := hbytes b (List.mem_cons_self b t)
      have hb' : ((b : ℕ) : ℤ) < 256 := by exact_mod_cast hb
      have hb0 : (0 : ℤ) ≤ ((b : ℕ) : ℤ) := by exact_mod_cast Nat.zero_le b
      have hmod : (chunkBytesToBigInt t * 256 + (b : ℤ)) % 256 = (b : ℤ) := by omega
      have hdiv : (chunkBytesToBigInt t * 256 + (b : ℤ)) / 256 = chunkBytesToBigInt t := by
        omega
      show (((chunkBytesToBigInt (b :: t)) % 256).toNat ::
          bigIntToChunkBytes k (chunkBytesToBigInt (b :: t) / 256)) = b :: t
      rw [hstep, hmod, hdiv, Int.toNat_natCast,
        ih t (by simpa using hlen) (fun x hx => hbytes x (List.mem_cons_of_mem b hx))]

theorem chunkBytesToBigInt_append_zeros (bs : List ℕ) (m : ℕ) :
    chunkBytesToBigInt (bs ++ List.replicate m 0) = chunkBytesToBigInt bs := by
  unfold chunkBytesToBigInt
  rw [List.foldr_append]
  have hz : (List.replicate m 0).foldr (fun (b : ℕ) (acc : ℤ) => acc * 256 + (b : ℤ)) 0
      = 0 := by
    induction m with
    | zero => rfl
    | succ m ihm => simpa [List.replicate_succ] using ihm
  rw [hz]

/-- Round trip of the chunk codec, with fuel. -/
theorem codec_roundtrip_aux :
    ∀ (fuel : ℕ) (bytes : List ℕ), bytes.length ≤ fuel → (∀ b ∈ bytes, b < 256) →
      bigIntChunksToArrayBuffer (chunksAux fuel bytes) bytes.length = bytes := by
  intro fuel
  induction fuel with
  | zero =>
    intro bytes hlen _
    have hnil : bytes = [] := List.length_eq_zero.mp (by omega)
    subst hnil
    rfl
  | succ fuel ih =>
    intro bytes hlen hbytes
    have h32 : CHUNK_SIZE = 32 := rfl
    by_cases hemp : bytes = []
    · subst hemp
      rfl
    · have hne : bytes.isEmpty = false := by
        simpa [List.isEmpty_iff] using hemp
      have hlpos : 0 < bytes.length := List.length_pos.mpr hemp
      have hstep1 : chunksAux (fuel + 1) bytes =
          chunkBytesToBigInt (paddedChunk bytes) ::
            chunksAux fuel (bytes.drop CHUNK_SIZE) := by
        simp [chunksAux, hne]
      rw [hstep1]
      have hdecode : bigIntChunksToArrayBuffer
          (chunkBytesToBigInt (paddedChunk bytes) ::
            chunksAux fuel (bytes.drop CHUNK_SIZE)) bytes.length =
          if bytes.length ≤ CHUNK_SIZE then
            (bigIntToChunkBytes CHUNK_SIZE
              (chunkBytesToBigInt (paddedChunk bytes))).take bytes.length
          else
            bigIntToChunkBytes CHUNK_SIZE (chunkBytesToBigInt (paddedChunk bytes)) ++
              bigIntChunksToArrayBuffer (chunksAux fuel (bytes.drop CHUNK_SIZE))
                (bytes.length - CHUNK_SIZE) := rfl
    
      rw [hdecode]
      by_cases hsmall : bytes.length ≤ CHUNK_SIZE
      · rw [if_pos hsmall]
        have htake : bytes.take CHUNK_SIZE = bytes := List.take_of_length_le hsmall
        have hpadlen : (paddedChunk bytes).length = CHUNK_SIZE := by
          unfold paddedChunk
          rw [htake, List.length_append, List.length_replicate]
          omega
        have hpadbytes : ∀ b ∈ paddedChunk bytes, b < 256 := by
          intro b hb
          unfold paddedChunk at hb
          rcases List.mem_append.mp hb with hb | hb
          · exact hbytes b (List.mem_of_mem_take hb)
          · rw [List.eq_of_mem_replicate hb]
            omega
        rw [bigIntToChunkBytes_chunkBytesToBigInt CHUNK_SIZE _ hpadlen hpadbytes]
        unfold paddedChunk
        rw [htake, List.take_append_of_le_length (le_refl _)]
        exact List.take_length bytes
      · rw [if_neg hsmall]
        push_neg at hsmall
        have htakelen : (bytes.take CHUNK_SIZE).length = CHUNK_SIZE := by
          rw [List.length_take]
          omega
        have hpad : paddedChunk bytes = bytes.take CHUNK_SIZE := by
          unfold paddedChunk
          rw [htakelen]
          simp
        have hdroplen : (bytes.drop CHUNK_SIZE).length = bytes.length - CHUNK_SIZE :=
          List.length_drop CHUNK_SIZE bytes
        have hih := ih (bytes.drop CHUNK_SIZE)
          (by rw [hdroplen]; omega)
          (fun b hb => hbytes b (List.mem_of_mem_drop hb))
        rw [hpad, bigIntToChunkBytes_chunkBytesToBigInt CHUNK_SIZE _ htakelen
          (fun b hb => hbytes b (List.mem_of_mem_take hb)), ← hdroplen, hih,
          List.take_append_drop]

/-- C3: for every byte buffer (every entry a byte, i.e. `< 256`) — any
length, including 0, exact multiples of 32 and lengths needing padding —
decoding the encoded chunks at the original byte length reproduces the
buffer exactly. -/
theorem claim_C3_codec_roundtrip (buffer : List ℕ) (hbytes : ∀ b ∈ buffer, b < 256) :
    bigIntChunksToArrayBuffer (arrayBufferToBigIntChunks buffer) buffer.length =
      buffer :=
  codec_roundtrip_aux buffer.length buffer le_rfl hbytes

theorem claim_C3_codec_roundtrip_witness :
    (∀ b ∈ [7, 255, 0], b < 256) ∧
      bigIntChunksToArrayBuffer (arrayBufferToBigIntChunks [7, 255, 0])
        (List.length [7, 255, 0]) = [7, 255, 0] :=
  ⟨by decide, claim_C3_codec_roundtrip [7, 255, 0] (by decide)⟩

/-! ## `SchemeOrchestrator`: the web file processor

The external AEAD/KDF providers (`decryptData`, `decryptDataWithPassword`)
and the digest provider (`calculateSHA256`) are black-box collaborators of
the core (they wrap WebCrypto), so the processor functions take them as
explicit function parameters. -/

/-- `PureShamirShare` from `types.ts`. -/
structure PureShamirShare where
  id : ℤ
  value : ℤ
  chunkIndex : ℕ
  totalChunks : ℕ
deriving DecidableEq

/-- The pure-Shamir metadata fields consulted by `recoverFilePureShamir`. -/
structure PureShamirMetadata where
  threshold : ℕ
  totalShares : ℕ
  filename : String
  originalSize : ℕ
  processedSize : ℕ
  totalChunks : ℕ
  usePassword : Bool
  salt : Option (List ℕ)
deriving DecidableEq

/-- The hybrid metadata fields consulted by `recoverFile`. -/
structure RecoveryMetadata where
  threshold : ℕ
  totalShares : ℕ
  filename : String
  originalSize : ℕ
  iv : List ℕ
  salt : Option (List ℕ)
  usePassword : Bool
deriving DecidableEq

/-- `FileRecoveryResult` from `types.ts`. -/
structure FileRecoveryResult where
  data : List ℕ
  recoveredSHA256 : String
  filename : String
deriving DecidableEq

/-- JavaScript truthiness of the optional `userPassword` string:
`undefined` and the empty string are falsy. -/
def truthyPassword : Option String → Bool
  | none => false
  | some s => s != ""

/-- `createRecoveryResult(data, filename)`: pairs the data with its digest
from the hash provider. -/
def createRecoveryResult (sha256 : List ℕ → String) (data : List ℕ)
    (filename : String) : FileRecoveryResult :=
  { data := data, recoveredSHA256 := sha256 data, filename := filename }

/-- The `chunkShares` collection step of `recoverFilePureShamir` for one
chunk index: the shares of group `chunkIndex` (when the group exists),
stripped to plain `{id, value}` pairs. -/
def chunkSharesAt (shares : List (List PureShamirShare)) (chunkIndex : ℕ) :
    List Share :=
  (shares.getD chunkIndex []).map (fun s => { id := s.id, value := s.value })

/-- The `availableShareIds` set of `recoverFilePureShamir`: distinct share
ids across every chunk group. -/
def availableShareIds (shares : List (List PureShamirShare)) : Finset ℤ :=
  (shares.flatten.map PureShamirShare.id).toFinset

/-- The per-chunk message thrown by the recovery loop. -/
def chunkInsufficientMsg (chunkIndex threshold count : ℕ) : String :=
  "Insufficient shares for data chunk " ++ toString chunkIndex ++
    ", need at least " ++ toString threshold ++
    " shares, currently only have " ++ toString count

/-- The per-chunk recovery loop of `recoverFilePureShamir`: for each chunk
index `0 .. totalChunks-1`, validate the per-chunk share count against the
threshold, then `recoverSecret`; a failure aborts at the first failing
chunk, like the thrown exception does. -/
def recoverChunks (shares : List (List PureShamirShare))
    (metadata : PureShamirMetadata) : Except String (List ℤ) :=
  (List.range metadata.totalChunks).mapM (fun chunkIndex =>
    let chunkShares := chunkSharesAt shares chunkIndex
    if chunkShares.length < metadata.threshold then
      .error (chunkInsufficientMsg chunkIndex metadata.threshold chunkShares.length)
    else recoverSecret chunkShares metadata.threshold)

/-- The password-decryption tail of `recoverFilePureShamir`: when the
password branch is live (truthy password, salt present), split the
recovered bytes into the 12-byte IV and ciphertext inside a `try` whose
`catch` funnels every failure — short data, wrong password, AEAD
authentication failure — into one generic error. -/
def pureShamirDecrypt
    (decryptDataWithPassword : List ℕ → String → List ℕ → List ℕ → Except String (List ℕ))
    (metadata : PureShamirMetadata) (userPassword : Option String)
    (recoveredData : List ℕ) : Except String (List ℕ) :=
  match metadata.usePassword, userPassword, metadata.salt with
  | true, some pw, some salt =>
    if pw = "" then .ok recoveredData
    else
      match (if recoveredData.length < 12 then
          Except.error "Data corruption: insufficient length"
        else
          decryptDataWithPassword (recoveredData.drop 12) pw salt
            (recoveredData.take 12)) with
      | .error _ => .error "Password error or data corruption"
      | .ok d => .ok d
  | _, _, _ => .ok recoveredData

/-- `recoverFilePureShamir(options, userPassword)` from the web file
processor. -/
def recoverFilePureShamir
    (sha256 : List ℕ → String)
    (decryptDataWithPassword : List ℕ → String → List ℕ → List ℕ → Except String (List ℕ))
    (shares : List (List PureShamirShare)) (metadata : PureShamirMetadata)
    (userPassword : Option String) : Except String FileRecoveryResult :=
  if metadata.usePassword ∧ ¬ truthyPassword userPassword then
    .error "This file is password protected, please provide the correct password"
  else if ¬ metadata.usePassword ∧ truthyPassword userPassword then
    .error "This file is not password protected, no password needed"
  else if shares.length < metadata.totalChunks then
    .error "Share data incomplete"
  else if (availableShareIds shares).card < metadata.threshold then
    .error ("Insufficient share files, need at least " ++
      toString metadata.threshold ++ " different share files, currently only have " ++
      toString (availableShareIds shares).card ++ ". Please upload more share files.")
  else
    match recoverChunks shares metadata with
    | .error e => .error e
    | .ok recoveredChunks =>
      let actualDataSize := if metadata.usePassword then metadata.processedSize
        else metadata.originalSize
      let recoveredData := bigIntChunksToArrayBuffer recoveredChunks actualDataSize
      match pureShamirDecrypt decryptDataWithPassword metadata userPassword
          recoveredData with
      | .error e => .error e
      | .ok finalData => .ok (createRecoveryResult sha256 finalData metadata.filename)

/-- `bigIntToArrayBuffer(value, length)` from `webCrypto.ts`: the value's
hex form, left-padded to `length` bytes, read big-endian (exact for the
nonnegative values it receives). -/
def bigIntToArrayBuffer (value : ℤ) (length : ℕ) : List ℕ :=
  (List.range length).map (fun i => ((value / (256 : ℤ) ^ (length - 1 - i)) % 256).toNat)

/-- The share-recovery (`else`) branch of `recoverFile`: recover the key
integer from the shares, widen it to 32 key bytes, decrypt with the AEAD
provider. -/
def recoverFileWithShares
    (sha256 : List ℕ → String)
    (decryptData : List ℕ → List ℕ → List ℕ → Except String (List ℕ))
    (encryptedData : List ℕ) (shares : List Share) (metadata : RecoveryMetadata) :
    Except String FileRecoveryResult :=
  match recoverSecret shares metadata.threshold with
  | .error e => .error e
  | .ok keyInt =>
    (decryptData encryptedData (bigIntToArrayBuffer keyInt 32) metadata.iv).map
      (fun d => createRecoveryResult sha256 d metadata.filename)

/-- `recoverFile(encryptedData, options, userPassword)` from the web file
processor (hybrid scheme). -/
def recoverFile
    (sha256 : List ℕ → String)
    (decryptDataWithPassword : List ℕ → String → List ℕ → List ℕ → Except String (List ℕ))
    (decryptData : List ℕ → List ℕ → List ℕ → Except String (List ℕ))
    (encryptedData : List ℕ) (shares : List Share) (metadata : RecoveryMetadata)
    (userPassword : Option String) : Except String FileRecoveryResult :=
  if shares.length < metadata.threshold then
    .error ("Need at least " ++ toString metadata.threshold ++ " shares to recover file")
  else if metadata.usePassword ∧ ¬ truthyPassword userPassword then
    .error "This file is password encrypted, please provide the correct password"
  else if ¬ metadata.usePassword ∧ truthyPassword userPassword then
    .error "This file is not password encrypted, no password needed"
  else
    match metadata.usePassword, userPassword, metadata.salt with
    | true, some pw, some salt =>
      if pw = "" then
        recoverFileWithShares sha256 decryptData encryptedData shares metadata
      else
        (decryptDataWithPassword encryptedData pw salt metadata.iv).map
          (fun d => createRecoveryResult sha256 d metadata.filename)
    | _, _, _ =>
      recoverFileWithShares sha256 decryptData encryptedData shares metadata

/-! ## First-error behaviour of the per-chunk loop -/

theorem mapM_first_error {α β : Type} (f : α → Except String β) :
    ∀ l : List α, (∃ x ∈ l, ∃ e, f x = .error e) →
      ∃ x ∈ l, ∃ e, f x = .error e ∧ l.mapM f = .error e := by
  intro l
  induction l with
  | nil => rintro ⟨x, hx, _⟩; exact absurd hx (List.not_mem_nil x)
  | cons a t ih =>
    rintro ⟨x, hx, e, hfx⟩
    cases hfa : f a with
    | error ea =>
      refine ⟨a, List.mem_cons_self a t, ea, hfa, ?_⟩
      rw [List.mapM_cons, hfa]
      rfl
    | ok b =>
      have hxt : x ∈ t := by
        rcases List.mem_cons.mp hx with rfl | hxt
        · rw [hfa] at hfx; exact absurd hfx (by simp)
        · exact hxt
      obtain ⟨y, hy, e', hfy, hmap⟩ := ih ⟨x, hxt, e, hfx⟩
      refine ⟨y, List.mem_cons_of_mem a hy, e', hfy, ?_⟩
      rw [List.mapM_cons, hfa, hmap]
      rfl

theorem mapM_all_ok {α β : Type} (f : α → Except String β) :
    ∀ l : List α, (∀ x ∈ l, ∃ y, f x = .ok y) →
      ∃ ys, l.mapM f = .ok ys := by
  intro l
  induction l with
  | nil => intro _; exact ⟨[], rfl⟩
  | cons a t ih =>
    intro h
    obtain ⟨b, hb⟩ := h a (List.mem_cons_self a t)
    obtain ⟨ys, hys⟩ := ih (fun x hx => h x (List.mem_cons_of_mem a hx))
    refine ⟨b :: ys, ?_⟩
    rw [List.mapM_cons, hb, hys]
    rfl

/-- A failing step of the per-chunk loop can only be the per-chunk
insufficient-shares check: with enough shares, `recoverSecret`'s own guard
passes and the step succeeds. -/
theorem recoverChunks_step_error (shares : List (List PureShamirShare))
    (metadata : PureShamirMetadata) (x : ℕ) (e : String)
    (h : (if (chunkSharesAt shares x).length < metadata.threshold then
        Except.error
          (chunkInsufficientMsg x metadata.threshold (chunkSharesAt shares x).length)
      else recoverSecret (chunkSharesAt shares x) metadata.threshold) = .error e) :
    (chunkSharesAt shares x).length < metadata.threshold ∧
      e = chunkInsufficientMsg x metadata.threshold (chunkSharesAt shares x).length := by
  by_cases hc : (chunkSharesAt shares x).length < metadata.threshold
  · rw [if_pos hc] at h
    exact ⟨hc, (Except.error.inj h).symm⟩
  · rw [if_neg hc] at h
    unfold recoverSecret at h
    rw [if_neg hc] at h
    exact absurd h (by simp)

/-! ## Claims C4, C5, C8: the scheme orchestrator -/

/-- C4: in pure-Shamir recovery, once the password check, the chunk-group
completeness check and the overall distinct-id check all pass, a single
chunk with fewer than `threshold` shares still makes recovery fail, with
the per-chunk insufficient-shares error naming a chunk that is short
(enough distinct ids overall does not suffice). -/
theorem claim_C4_per_chunk_insufficiency
    (sha256 : List ℕ → String)
    (decrypt : List ℕ → String → List ℕ → List ℕ → Except String (List ℕ))
    (shares : List (List PureShamirShare)) (metadata : PureShamirMetadata)
    (userPassword : Option String)
    (hpass1 : ¬ (metadata.usePassword ∧ ¬ truthyPassword userPassword))
    (hpass2 : ¬ (¬ metadata.usePassword ∧ truthyPassword userPassword))
    (hcomplete : metadata.totalChunks ≤ shares.length)
    (hids : metadata.threshold ≤ (availableShareIds shares).card)
    (k : ℕ) (hk : k < metadata.totalChunks)
    (hshort : (chunkSharesAt shares k).length < metadata.threshold) :
    ∃ k', k' < metadata.totalChunks ∧
      (chunkSharesAt shares k').length < metadata.threshold ∧
      recoverFilePureShamir sha256 decrypt shares metadata userPassword =
        .error (chunkInsufficientMsg k' metadata.threshold
          (chunkSharesAt shares k').length) := by
  have hex : ∃ x ∈ List.range metadata.totalChunks, ∃ e,
      (fun chunkIndex =>
        (if (chunkSharesAt shares chunkIndex).length < metadata.threshold then
          Except.error (chunkInsufficientMsg chunkIndex metadata.threshold
            (chunkSharesAt shares chunkIndex).length)
        else recoverSecret (chunkSharesAt shares chunkIndex) metadata.threshold :
          Except String ℤ)) x = .error e := by
    refine ⟨k, List.mem_range.mpr hk,
      chunkInsufficientMsg k metadata.threshold (chunkSharesAt shares k).length, ?_⟩
    show (if (chunkSharesAt shares k).length < metadata.threshold then _ else _) = _
    rw [if_pos hshort]
  obtain ⟨x, hxmem, e, hfx, hmap⟩ := mapM_first_error _ _ hex
  obtain ⟨hxshort, rfl⟩ := recoverChunks_step_error shares metadata x e hfx
  refine ⟨x, List.mem_range.mp hxmem, hxshort, ?_⟩
  have hrc : recoverChunks shares metadata =
      .error (chunkInsufficientMsg x metadata.threshold
        (chunkSharesAt shares x).length) := hmap
  unfold recoverFilePureShamir
  rw [if_neg hpass1, if_neg hpass2, if_neg (by omega), if_neg (by omega), hrc]

theorem claim_C4_per_chunk_insufficiency_witness :
    ∃ k', k' < (2 : ℕ) ∧
      (chunkSharesAt [[⟨1, 0, 0, 2⟩, ⟨2, 0, 0, 2⟩, ⟨3, 0, 0, 2⟩], [⟨1, 0, 1, 2⟩]]
        k').length < 2 ∧
      recoverFilePureShamir (fun _ => "h") (fun _ _ _ _ => .ok [])
        [[⟨1, 0, 0, 2⟩, ⟨2, 0, 0, 2⟩, ⟨3, 0, 0, 2⟩], [⟨1, 0, 1, 2⟩]]
        ⟨2, 3, "f", 64, 64, 2, false, none⟩ none =
        .error (chunkInsufficientMsg k' 2
          (chunkSharesAt [[⟨1, 0, 0, 2⟩, ⟨2, 0, 0, 2⟩, ⟨3, 0, 0, 2⟩], [⟨1, 0, 1, 2⟩]]
            k').length) :=
  claim_C4_per_chunk_insufficiency (fun _ => "h") (fun _ _ _ _ => .ok [])
    [[⟨1, 0, 0, 2⟩, ⟨2, 0, 0, 2⟩, ⟨3, 0, 0, 2⟩], [⟨1, 0, 1, 2⟩]]
    ⟨2, 3, "f", 64, 64, 2, false, none⟩ none
    (by decide) (by decide) (by decide) (by decide) 1 (by decide) (by decide)

/-- The `try/catch` decryption tail funnels both failure modes — recovered
data shorter than the 12-byte IV, or any AEAD/KDF failure — into the one
generic error. -/
theorem pureShamirDecrypt_fails
    (decrypt : List ℕ → String → List ℕ → List ℕ → Except String (List ℕ))
    (metadata : PureShamirMetadata) (pw : String) (salt : List ℕ) (rd : List ℕ)
    (hup : metadata.usePassword = true) (hpw : pw ≠ "")
    (hsalt : metadata.salt = some salt)
    (hfail : rd.length < 12 ∨ ∃ e, decrypt (rd.drop 12) pw salt (rd.take 12) = .error e) :
    pureShamirDecrypt decrypt metadata (some pw) rd =
      .error "Password error or data corruption" := by
  unfold pureShamirDecrypt
  rw [hup, hsalt]
  rcases hfail with hshort | ⟨e, he⟩
  · simp [if_neg hpw, if_pos hshort]
  · by_cases hshort : rd.length < 12
    · simp [if_neg hpw, if_pos hshort]
    · simp [if_neg hpw, if_neg hshort, he]

/-- C8: in pure-Shamir password-protected recovery, after the chunks are
reassembled, any failure inside the decryption step — data shorter than the
12-byte IV, or the password-keyed AEAD decryption failing for any reason
(wrong password, corrupted data) — surfaces as the single generic error
`"Password error or data corruption"`, which never identifies which of the
failure modes occurred. -/
theorem claim_C8_uniform_decrypt_error
    (sha256 : List ℕ → String)
    (decrypt : List ℕ → String → List ℕ → List ℕ → Except String (List ℕ))
    (shares : List (List PureShamirShare)) (metadata : PureShamirMetadata)
    (pw : String) (salt : List ℕ) (chunks : List ℤ)
    (hup : metadata.usePassword = true) (hpw : pw ≠ "")
    (hsalt : metadata.salt = some salt)
    (hcomplete : metadata.totalChunks ≤ shares.length)
    (hids : metadata.threshold ≤ (availableShareIds shares).card)
    (hchunks : recoverChunks shares metadata = .ok chunks)
    (hfail : (bigIntChunksToArrayBuffer chunks metadata.processedSize).length < 12 ∨
      ∃ e, decrypt ((bigIntChunksToArrayBuffer chunks metadata.processedSize).drop 12)
        pw salt ((bigIntChunksToArrayBuffer chunks metadata.processedSize).take 12) =
        .error e) :
    recoverFilePureShamir sha256 decrypt shares metadata (some pw) =
      .error "Password error or data corruption" := by
  have htr : truthyPassword (some pw) = true := by
    simp [truthyPassword, hpw]
  unfold recoverFilePureShamir
  rw [if_neg (by simp [hup, htr]), if_neg (by simp [hup, htr]),
    if_neg (by omega), if_neg (by omega), hchunks]
  have hsize : (if metadata.usePassword = true then metadata.processedSize
      else metadata.originalSize) = metadata.processedSize := by
    simp [hup]
  have hdec := pureShamirDecrypt_fails decrypt metadata pw salt
    (bigIntChunksToArrayBuffer chunks metadata.processedSize) hup hpw hsalt hfail
  simp only [hsize, hdec]

theorem claim_C8_uniform_decrypt_error_witness :
    recoverFilePureShamir (fun _ => "h") (fun _ _ _ _ => .ok [])
      [[⟨1, 0, 0, 1⟩, ⟨2, 0, 0, 1⟩]] ⟨2, 3, "f", 5, 5, 1, true, some []⟩
      (some "x") = .error "Password error or data corruption" :=
  claim_C8_uniform_decrypt_error (fun _ => "h") (fun _ _ _ _ => .ok [])
    [[⟨1, 0, 0, 1⟩, ⟨2, 0, 0, 1⟩]] ⟨2, 3, "f", 5, 5, 1, true, some []⟩
    "x" [] [0] (by decide) (by decide) (by decide) (by decide) (by decide)
    (by rfl) (Or.inl (by decide))

/-- C5: in hybrid recovery with a truthy password, present salt and enough
shares, the output is exactly the password-derived decryption of the
ciphertext with `metadata.iv` — the share-recovery path is not exercised —
so two share lists with the same ids (differing only in share values) give
identical results. -/
theorem claim_C5_password_path_ignores_shares
    (sha256 : List ℕ → String)
    (dpw : List ℕ → String → List ℕ → List ℕ → Except String (List ℕ))
    (dd : List ℕ → List ℕ → List ℕ → Except String (List ℕ))
    (encryptedData : List ℕ) (metadata : RecoveryMetadata)
    (pw : String) (salt : List ℕ) (shares₁ shares₂ : List Share)
    (hup : metadata.usePassword = true) (hpw : pw ≠ "")
    (hsalt : metadata.salt = some salt)
    (hlen : metadata.threshold ≤ shares₁.length)
    (hids : shares₁.map Share.id = shares₂.map Share.id) :
    recoverFile sha256 dpw dd encryptedData shares₁ metadata (some pw) =
      (dpw encryptedData pw salt metadata.iv).map
        (fun d => createRecoveryResult sha256 d metadata.filename) ∧
    recoverFile sha256 dpw dd encryptedData shares₁ metadata (some pw) =
      recoverFile sha256 dpw dd encryptedData shares₂ metadata (some pw) := by
  have htr : truthyPassword (some pw) = true := by
    simp [truthyPassword, hpw]
  have hlen2 : shares₂.length = shares₁.length := by
    have h := congrArg List.length hids
    rw [List.length_map, List.length_map] at h
    omega
  have hone : ∀ sh : List Share, metadata.threshold ≤ sh.length →
      recoverFile sha256 dpw dd encryptedData sh metadata (some pw) =
        (dpw encryptedData pw salt metadata.iv).map
          (fun d => createRecoveryResult sha256 d metadata.filename) := by
    intro sh hsh
    unfold recoverFile
    rw [if_neg (by omega), if_neg (by simp [hup, htr]),
      if_neg (by simp [hup, htr]), hup, hsalt]
    simp [if_neg hpw]
  exact ⟨hone shares₁ hlen, by rw [hone shares₁ hlen, hone shares₂ (by omega)]⟩

theorem claim_C5_password_path_ignores_shares_witness :
    recoverFile (fun _ => "h") (fun data _ _ _ => .ok data) (fun _ _ _ => .ok [])
      [9] [⟨1, 0⟩, ⟨2, 0⟩] ⟨2, 3, "f", 1, [4], some [], true⟩ (some "pw") =
      (Except.ok [9] : Except String (List ℕ)).map
        (fun d => createRecoveryResult (fun _ => "h") d "f") ∧
    recoverFile (fun _ => "h") (fun data _ _ _ => .ok data) (fun _ _ _ => .ok [])
      [9] [⟨1, 0⟩, ⟨2, 0⟩] ⟨2, 3, "f", 1, [4], some [], true⟩ (some "pw") =
      recoverFile (fun _ => "h") (fun data _ _ _ => .ok data) (fun _ _ _ => .ok [])
        [9] [⟨1, 7⟩, ⟨2, 9⟩] ⟨2, 3, "f", 1, [4], some [], true⟩ (some "pw") :=
  claim_C5_password_path_ignores_shares (fun _ => "h") (fun data _ _ _ => .ok data)
    (fun _ _ _ => .ok []) [9] ⟨2, 3, "f", 1, [4], some [], true⟩ "pw" []
    [⟨1, 0⟩, ⟨2, 0⟩] [⟨1, 7⟩, ⟨2, 9⟩] (by decide) (by decide) (by decide)
    (by decide) (by decide)

/-! ## `ShareSerialization`: `detectScheme` -/

/-- A parsed JSON value, as `JSON.parse` can produce it (no `undefined`,
no `NaN`: JSON has neither). -/
inductive JsValue where
  | null : JsValue
  | bool (b : Bool) : JsValue
  | num (q : ℚ) : JsValue
  | str (s : String) : JsValue
  | arr (elems : List JsValue) : JsValue
  | obj (fields : List (String × JsValue)) : JsValue

/-- JavaScript truthiness of a JSON value: `null`, `false`, `0` and `""`
are falsy; every array and object is truthy. -/
def JsValue.truthy : JsValue → Bool
  | .null => false
  | .bool b => b
  | .num q => decide (q ≠ 0)
  | .str s => s != ""
  | .arr _ => true
  | .obj _ => true

/-- Property access `v.key`: defined on objects, `undefined` (`none`)
otherwise (primitive receivers yield `undefined`; `null` receivers throw in
JavaScript, but `detectScheme`'s surrounding `try` turns that into the same
fallthrough). -/
def jsGetField : JsValue → String → Option JsValue
  | .obj fields, key => fields.lookup key
  | _, _ => none

/-- Truthiness of a possibly-`undefined` value. -/
def truthyOpt : Option JsValue → Bool
  | none => false
  | some v => v.truthy

/-- `Array.isArray`. -/
def isArray : Option JsValue → Bool
  | some (.arr _) => true
  | _ => false

/-- `detectScheme(shareFileData)` from the web file processor, applied to
the outcome of `JSON.parse(shareFileData)` (`none` models the parse
exception, swallowed by the surrounding `try/catch`):
return `metadata.scheme` when truthy, else `'pure-shamir'` for truthy
`shareId` plus a `shares` array, else `'hybrid'`. -/
def detectScheme (parseResult : Option JsValue) : JsValue :=
  match parseResult with
  | none => .str "hybrid"
  | some shareFile =>
    if truthyOpt (jsGetField shareFile "metadata") &&
        truthyOpt ((jsGetField shareFile "metadata").bind
          (fun m => jsGetField m "scheme")) then
      ((jsGetField shareFile "metadata").bind (fun m => jsGetField m "scheme")).getD .null
    else if truthyOpt (jsGetField shareFile "shareId") &&
        truthyOpt (jsGetField shareFile "shares") &&
        isArray (jsGetField shareFile "shares") then
      .str "pure-shamir"
    else .str "hybrid"

/-- The amended C9 behaviour, written from the corrected claim's words:
`detectScheme` is total (never throws); malformed JSON yields `'hybrid'`;
a truthy `metadata.scheme` is returned as the tag; otherwise a truthy
`shareId` together with a `shares` array yields `'pure-shamir'`; every
other shape yields `'hybrid'`. -/
def detectSchemeSpec (parseResult : Option JsValue) : JsValue :=
  match parseResult with
  | none => .str "hybrid"
  | some shareFile =>
    if truthyOpt (jsGetField shareFile "metadata") &&
        truthyOpt ((jsGetField shareFile "metadata").bind
          (fun m => jsGetField m "scheme")) then
      ((jsGetField shareFile "metadata").bind (fun m => jsGetField m "scheme")).getD .null
    else if truthyOpt (jsGetField shareFile "shareId") &&
        isArray (jsGetField shareFile "shares") then
      .str "pure-shamir"
    else .str "hybrid"

/-- C9 (amended): `detectScheme` never throws — it is a total function of
the parse outcome — and agrees everywhere with the amended behaviour:
`'hybrid'` on malformed JSON and unrecognized shapes, the `metadata.scheme`
value when metadata and its scheme field are truthy, and `'pure-shamir'`
when instead a **truthy** `shareId` and a `shares` array are present. -/
theorem claim_C9_detectScheme_total (parseResult : Option JsValue) :
    detectScheme parseResult = detectSchemeSpec parseResult := by
  match parseResult with
  | none => rfl
  | some shareFile =>
    simp only [detectScheme, detectSchemeSpec]
    have harr : (truthyOpt (jsGetField shareFile "shares") &&
        isArray (jsGetField shareFile "shares")) =
        isArray (jsGetField shareFile "shares") := by
      match hv : jsGetField shareFile "shares" with
      | none => rfl
      | some .null => rfl
      | some (.bool b) => cases b <;> rfl
      | some (.num q) => simp [isArray]
      | some (.str s) => simp [isArray]
      | some (.arr es) => rfl
      | some (.obj fs) => rfl
    rw [Bool.and_assoc, harr]

/-- C9, as stated, is false: the object `{"shareId": 0, "shares": []}`
carries a `shareId` plus a `shares` array and no scheme tag, yet
`detectScheme` returns `'hybrid'`, not `'pure-shamir'`, because the JS
truthiness test rejects `shareId = 0`. -/
theorem claim_C9_counterexample :
    (jsGetField (JsValue.obj [("shareId", .num 0), ("shares", .arr [])])
      "shareId").isSome = true ∧
    isArray (jsGetField (JsValue.obj [("shareId", .num 0), ("shares", .arr [])])
      "shares") = true ∧
    jsGetField (JsValue.obj [("shareId", .num 0), ("shares", .arr [])])
      "metadata" = none ∧
    detectScheme (some (JsValue.obj [("shareId", .num 0), ("shares", .arr [])])) =
      .str "hybrid" := by
  refine ⟨rfl, rfl, rfl, ?_⟩
  rfl

end SecretSharing
